import Mathlib

/-!
The parser and the query builder of queryGenerator (`main.go`).

A shallow embedding of `main.go` and the properties of its specification.

Go strings are modelled as lists of Unicode code points (`Str`); the input
file is UTF-8 text. The Go library functions the program calls
(`strings.TrimSpace`, `strings.Split`, `strings.Fields`, `strings.ToLower`,
`strings.Index`, `strings.Join`, `bufio.Scanner`) are modelled by the
definitions of the namespace `Go`; the functions of `main.go` keep their names.

The parser is a function of the content of the file: the file can be opened
and read, and its two reads (the scanner of the first pass, `os.ReadFile` of
the fallback pass) see the same content. What remains of the scanner's errors
is `bufio.ErrTooLong`, which depends on the content alone.
-/

namespace QueryGen

/-- A Go string, as the list of its code points. -/
abbrev Str := List Char

namespace Go

/-- `unicode.IsSpace`: the white-space code points of Go (Latin-1 and the
Unicode `White_Space` property). -/
def isSpace (c : Char) : Bool :=
  let n := c.toNat
  n == 0x09 || n == 0x0A || n == 0x0B || n == 0x0C || n == 0x0D || n == 0x20 ||
  n == 0x85 || n == 0xA0 || n == 0x1680 || (0x2000 ≤ n && n ≤ 0x200A) ||
  n == 0x2028 || n == 0x2029 || n == 0x202F || n == 0x205F || n == 0x3000

/-- `strings.TrimSpace`: the string without its leading and trailing white space. -/
def trimSpace (s : Str) : Str :=
  (s.dropWhile isSpace).rdropWhile isSpace

/-- `strings.HasPrefix`. -/
def hasPrefix (s p : Str) : Bool :=
  p.isPrefixOf s

/-- `strings.Split(s, sep)` for a one-character separator: the segments between
the separators, `n + 1` of them for `n` separators. -/
def split (s : Str) (sep : Char) : List Str :=
  s.splitOnP (fun c => c == sep)

/-- `strings.Fields`: the maximal runs of non-white-space characters. -/
def fields (s : Str) : List Str :=
  (s.splitOnP isSpace).filter (fun f => !f.isEmpty)

/-- `strings.ReplaceAll(s, old, new)` for one-character `old` and `new`. -/
def replaceAll (s : Str) (old new : Char) : Str :=
  s.map (fun c => if c = old then new else c)

/-- `strings.Join`. -/
def join (parts : List Str) (sep : Str) : Str :=
  sep.intercalate parts

/-- `unicode.ToLower` as far as the parser can observe it: the program only
tests the lowered line for the ASCII prefixes `vendors:` and `keywords:`, and
the code points that lower to an ASCII character are `A`-`Z`, U+0130 (to `i`)
and U+212A, the Kelvin sign (to `k`). Every other code point keeps or
receives a non-ASCII value, modelled here as unchanged. -/
def toLowerRune (c : Char) : Char :=
  if 65 ≤ c.toNat ∧ c.toNat ≤ 90 then Char.ofNat (c.toNat + 32)
  else if c.toNat = 0x212A then 'k'
  else if c.toNat = 0x130 then 'i'
  else c

/-- `strings.ToLower`. -/
def toLower (s : Str) : Str :=
  s.map toLowerRune

/-- The number of bytes of the UTF-8 encoding of a code point. -/
def utf8Len (c : Char) : Nat :=
  if c.toNat < 0x80 then 1
  else if c.toNat < 0x800 then 2
  else if c.toNat < 0x10000 then 3
  else 4

/-- `len(s)`: the number of bytes of a string. -/
def byteLen (s : Str) : Nat :=
  (s.map utf8Len).sum

/-- `bufio.MaxScanTokenSize`: the buffer limit of a `bufio.Scanner`. -/
def maxScanTokenSize : Nat := 64 * 1024

/-- The `dropCR` of `bufio.ScanLines`: one trailing carriage return is removed. -/
def dropCR (s : Str) : Str :=
  match s.getLast? with
  | some c => if c = '\r' then s.dropLast else s
  | none => s

/-- The lines `bufio.ScanLines` cuts a content into, before `dropCR`: the
segments between line feeds; a final segment that is empty is no line. -/
def scanSegments (content : Str) : List Str :=
  let segs := split content '\n'
  match segs.getLast? with
  | some [] => segs.dropLast
  | _ => segs

/-- A `bufio.Scanner` with the `ScanLines` split function, run to its end over
a content: the tokens `sc.Text()` returns while `sc.Scan()` is true, and whether
`sc.Err()` is non-nil afterwards. The scanner stops with `bufio.ErrTooLong` at
the first line that does not fit its buffer, a line of `maxScanTokenSize`
bytes or more. -/
def scanAux : List Str → List Str × Bool
  | [] => ([], false)
  | seg :: rest =>
    if maxScanTokenSize ≤ byteLen seg then ([], true)
    else ((dropCR seg) :: (scanAux rest).1, (scanAux rest).2)

/-- The tokens and final error state of a line scanner over a content. -/
def scanLines (content : Str) : List Str × Bool :=
  scanAux (scanSegments content)

end Go

open Go

/-! ## The query builder (`main`, lines 39-62) -/

/-- The prompt reader `readLine`: the line read from standard input, trimmed. -/
def readLine (text : Str) : Str :=
  trimSpace text

/-- The clause `fmt.Sprintf("\"%s %s\" ~%s", v, k, proxStr)`. -/
def clause (v k proxStr : Str) : Str :=
  ['"'] ++ v ++ [' '] ++ k ++ ['"', ' ', '~'] ++ proxStr

/-- The nested loop of `main` that fills `parts`. -/
def buildParts (vendors keywords : List Str) (proxStr : Str) : List Str :=
  vendors.foldl
    (fun parts v => keywords.foldl (fun parts k => parts ++ [clause v k proxStr]) parts) []

/-- The query of `main`, from the parsed lists, the proximity text and the tail. -/
def buildQuery (vendors keywords : List Str) (proxStr tail : Str) : Str :=
  let query := join (buildParts vendors keywords proxStr) " OR ".toList
  if tail ≠ [] then
    (if !hasPrefix tail [' '] then query ++ [' '] else query) ++ tail
  else query

/-- The proximity text of `main`: the prompt's answer, `10` when it is blank. -/
def proximityOf (answer : Str) : Str :=
  let proxStr := readLine answer
  if trimSpace proxStr = [] then "10".toList else proxStr

/-- The tail of `main`: the prompt's answer, trimmed. -/
def tailOf (answer : Str) : Str :=
  trimSpace (readLine answer)

/-- The query `main` writes, from the parsed lists and the two prompt answers. -/
def mainQuery (vendors keywords : List Str) (proxAnswer tailAnswer : Str) : Str :=
  buildQuery vendors keywords (proximityOf proxAnswer) (tailOf tailAnswer)

/-! ## The parser (`parseVendorsKeywords` and its helpers) -/

/-- The function `afterColon`: what follows the first colon, trimmed; the
string itself when it has no colon. The slice `s[i+1:]` is in range, since
`i < len(s)`. -/
def afterColon (s : Str) : Str :=
  let i := s.indexOf ':'
  if i < s.length then trimSpace (s.drop (i + 1)) else s

/-- The function `splitCSV`. -/
def splitCSV (s : Str) : List Str :=
  let s := replaceAll s ';' ','
  let parts := split s ','
  let parts := if parts.length = 1 then fields s else parts
  parts.foldl
    (fun out p =>
      let p := trimSpace p
      if p ≠ [] then out ++ [p] else out) []

/-- The state of the loop of `splitOnBlankBlocks`. -/
structure BlockState where
  blocks : List Str
  cur : List Str
deriving DecidableEq, Repr

/-- One iteration of the loop of `splitOnBlankBlocks`. -/
def blockStep (st : BlockState) (line : Str) : BlockState :=
  let trim := trimSpace line
  if trim = [] ∨ hasPrefix trim ['#'] then
    if 0 < st.cur.length then ⟨st.blocks ++ [join st.cur ['\n']], []⟩ else st
  else ⟨st.blocks, st.cur ++ [trim]⟩

/-- The function `splitOnBlankBlocks`. -/
def splitOnBlankBlocks (s : Str) : List Str :=
  let lines := split s '\n'
  let st := lines.foldl blockStep ⟨[], []⟩
  if 0 < st.cur.length then st.blocks ++ [join st.cur ['\n']] else st.blocks

/-- The state of the loop of `normalizeList`: the set `seen` and the slice `out`. -/
structure NormState where
  seen : List Str
  out : List Str
deriving DecidableEq, Repr

/-- One iteration of the loop of `normalizeList`. -/
def normStep (st : NormState) (it : Str) : NormState :=
  let k := trimSpace it
  if k = [] then st
  else if k ∈ st.seen then st
  else ⟨k :: st.seen, st.out ++ [k]⟩

/-- The function `normalizeList`. -/
def normalizeList (items : List Str) : List Str :=
  (items.foldl normStep ⟨[], []⟩).out

/-- The ways `parseVendorsKeywords` fails on a file it could open and read:
its three error returns, and the run-time panic of an index out of range. -/
inductive ParseError
  | scanner
  | emptyFile
  | notLocated
  | indexOutOfRange
deriving DecidableEq, Repr

/-- The text of an error. -/
def ParseError.message : ParseError → String
  | .scanner => "bufio.Scanner: token too long"
  | .emptyFile => "file is empty after removing comments/blank lines"
  | .notLocated => "could not locate both vendors and keywords in file"
  | .indexOutOfRange => "panic: runtime error: index out of range"

deriving instance DecidableEq for Except

/-- The result of the parser: an error, or the vendors and the keywords. -/
abbrev ParseResult := Except ParseError (List Str × List Str)

/-- The scanning loop of `parseVendorsKeywords` (lines 105-113): the lines the
scanner returns, trimmed, without the blank ones and the comments. -/
def collectRawLines (tokens : List Str) : List Str :=
  tokens.foldl
    (fun rawLines text =>
      let line := trimSpace text
      if line = [] ∨ hasPrefix line ['#'] then rawLines else rawLines ++ [line]) []

/-- The first part of `parseVendorsKeywords` (lines 105-119): the raw lines, or
the error of the scanner, or the error of an empty file. -/
def readRawLines (content : Str) : Except ParseError (List Str) :=
  let sc := scanLines content
  let rawLines := collectRawLines sc.1
  if sc.2 then .error .scanner
  else if rawLines.length = 0 then .error .emptyFile
  else .ok rawLines

/-- The variable `section` of the labeled pass. -/
inductive Sect
  | none
  | vendors
  | keywords
deriving DecidableEq, Repr

/-- The state of the labeled pass. -/
structure LabeledState where
  vendors : List Str
  keywords : List Str
  sect : Sect
deriving DecidableEq, Repr

/-- One iteration of the labeled pass (lines 124-141). -/
def labeledStep (st : LabeledState) (line : Str) : LabeledState :=
  let lower := toLower line
  if hasPrefix lower "vendors:".toList then
    ⟨st.vendors ++ splitCSV (afterColon line), st.keywords, .vendors⟩
  else if hasPrefix lower "keywords:".toList then
    ⟨st.vendors, st.keywords ++ splitCSV (afterColon line), .keywords⟩
  else
    match st.sect with
    | .vendors => ⟨st.vendors ++ splitCSV line, st.keywords, .vendors⟩
    | .keywords => ⟨st.vendors, st.keywords ++ splitCSV line, .keywords⟩
    | .none => st

/-- The labeled pass with its normalisation (lines 122-143). -/
def labeledPass (rawLines : List Str) : List Str × List Str :=
  let st := rawLines.foldl labeledStep ⟨[], [], .none⟩
  (normalizeList st.vendors, normalizeList st.keywords)

/-- The end of `parseVendorsKeywords` (lines 162-165). -/
def finish (vendors keywords : List Str) : ParseResult :=
  if vendors.length = 0 ∨ keywords.length = 0 then .error .notLocated
  else .ok (vendors, keywords)

/-- The fallback pass (lines 150-165), entered with the lists of the labeled pass. -/
def fallbackPass (content : Str) (vendors keywords : List Str) : ParseResult :=
  let blocks := splitOnBlankBlocks content
  if 2 ≤ blocks.length ∧ vendors.length = 0 ∧ keywords.length = 0 then
    match blocks[0]?, blocks[1]? with
    | some b0, some b1 => finish (normalizeList (splitCSV b0)) (normalizeList (splitCSV b1))
    | _, _ => .error .indexOutOfRange
  else finish vendors keywords

/-- The function `parseVendorsKeywords`, on the content of the file at `path`. -/
def parseVendorsKeywords (content : Str) : ParseResult :=
  match readRawLines content with
  | .error e => .error e
  | .ok rawLines =>
    let labeled := labeledPass rawLines
    if 0 < labeled.1.length ∧ 0 < labeled.2.length then .ok labeled
    else fallbackPass content labeled.1 labeled.2

/-- What `main` does with the result of the parser (lines 28-36). -/
inductive MainParse
  | parseFailed (e : ParseError)
  | noVendorsOrKeywords
  | proceeds (vendors keywords : List Str)
deriving DecidableEq, Repr

/-- Lines 28-36 of `main`. -/
def mainParse (content : Str) : MainParse :=
  match parseVendorsKeywords content with
  | .error e => .parseFailed e
  | .ok (vendors, keywords) =>
    if vendors.length = 0 ∨ keywords.length = 0 then .noVendorsOrKeywords
    else .proceeds vendors keywords

/-! ## Reference definitions and notions of the specification -/

/-- A string without leading and trailing white space. -/
def Trimmed (s : Str) : Prop :=
  (∀ c, s.head? = some c → isSpace c = false) ∧ (∀ c, s.getLast? = some c → isSpace c = false)

/-- Every item that equals an earlier item is removed: the first occurrence of
each value is kept, at its place. -/
def removeLaterDuplicates : List Str → List Str
  | [] => []
  | x :: xs => x :: (removeLaterDuplicates xs).filter (fun y => decide (y ≠ x))

/-- The list normaliser as the specification words it (section 4.3): each item
trimmed, the empty items dropped, the duplicates removed keeping the first
occurrence. -/
def normalizeListSpec (items : List Str) : List Str :=
  removeLaterDuplicates ((items.map trimSpace).filter (fun k => decide (k ≠ [])))

/-- The separators of the field splitter: the comma and the semicolon. -/
def isSeparator (c : Char) : Bool :=
  c == ',' || c == ';'

/-- The field splitter as the specification words it (section 4.2): with a
comma or a semicolon in the chunk, the segments between the separators, each
trimmed, the empty ones dropped; without one, the maximal runs of characters
that are not white space. -/
def splitCSVSpec (s : Str) : List Str :=
  if s.any isSeparator then
    ((s.splitOnP isSeparator).map trimSpace).filter (fun t => decide (t ≠ []))
  else
    (s.splitOnP isSpace).filter (fun t => decide (t ≠ []))

/-- A trimmed line that is neither blank nor a comment. -/
def isContentLine (line : Str) : Bool :=
  !(decide (line = []) || hasPrefix line ['#'])

/-- A line the scanner's buffer cannot hold. -/
def tooLong (seg : Str) : Bool :=
  decide (maxScanTokenSize ≤ byteLen seg)

/-- The lines of a content: its segments between line feeds. -/
def linesOf (content : Str) : List Str :=
  split content '\n'

/-- The raw lines of a content (section 4.1, step 1): its lines, trimmed,
without the blank ones and the comments. -/
def rawLinesOf (content : Str) : List Str :=
  ((linesOf content).map trimSpace).filter isContentLine

/-- A raw line that starts, in any letter case, with `vendors:` or `keywords:`. -/
def hasLabel (line : Str) : Bool :=
  hasPrefix (toLower line) "vendors:".toList || hasPrefix (toLower line) "keywords:".toList

/-- A token of a list line: non-empty, without white space, comma or semicolon. -/
def IsToken (t : Str) : Prop :=
  t ≠ [] ∧ ∀ c ∈ t, isSpace c = false ∧ c ≠ ',' ∧ c ≠ ';'

/-- A token of 65530 bytes: with a label before it, a line the scanner cannot hold. -/
def longToken : Str :=
  List.replicate 65530 'a'

/-- The content with the line `c` inserted before its line number `i` (from 0;
after the last line when `i` is the number of lines). -/
def insertLine (content : Str) (i : Nat) (c : Str) : Str :=
  join ((linesOf content).take i ++ c :: (linesOf content).drop i) ['\n']

/-- The content with its line number `i` (from 0) replaced by the line `c`. -/
def replaceLine (content : Str) (i : Nat) (c : Str) : Str :=
  join ((linesOf content).set i c) ['\n']

/-- A comment line of 65536 bytes, which the scanner cannot hold. -/
def longComment : Str :=
  List.replicate 65536 '#'

/-- The content with the lines `P` put before it, each followed by a line feed. -/
def prependLines (P : List Str) (content : Str) : Str :=
  P.foldr (fun p rest => p ++ '\n' :: rest) content

/-! ## Lemmas on the string functions -/

theorem trimmed_nil : Trimmed [] := by
  constructor <;> intro c h <;> simp at h

theorem trimSpace_nil : trimSpace [] = [] := by
  simp [trimSpace]

theorem trimSpace_of_trimmed {s : Str} (h : Trimmed s) : trimSpace s = s := by
  unfold trimSpace
  have h1 : s.dropWhile isSpace = s := by
    cases s with
    | nil => rfl
    | cons a t =>
      have := h.1 a (by simp)
      simp [List.dropWhile, this]
  rw [h1, List.rdropWhile_eq_self_iff]
  intro hl
  have := h.2 (s.getLast hl) (List.getLast?_eq_getLast s hl)
  simp [this]

theorem trimmed_trimSpace (s : Str) : Trimmed (trimSpace s) := by
  unfold trimSpace
  constructor
  · intro c hc
    obtain ⟨t, ht⟩ := List.rdropWhile_prefix isSpace (s.dropWhile isSpace)
    have hne : List.rdropWhile isSpace (s.dropWhile isSpace) ≠ [] := by
      intro h0; rw [h0] at hc; simp at hc
    have hne2 : s.dropWhile isSpace ≠ [] := by
      intro h0; rw [h0] at hne; simp at hne
    have h1 := List.head_dropWhile_not isSpace s hne2
    have h2 : (s.dropWhile isSpace).head? = some c := by
      rw [← ht, List.head?_append_of_ne_nil _ hne, hc]
    rw [List.head?_eq_head hne2] at h2
    have h3 : (s.dropWhile isSpace).head hne2 = c := by simpa using h2
    rw [← h3]; exact h1
  · intro c hc
    have hne : List.rdropWhile isSpace (s.dropWhile isSpace) ≠ [] := by
      intro h0; rw [h0] at hc; simp at hc
    have h1 := List.rdropWhile_last_not isSpace (s.dropWhile isSpace) hne
    rw [List.getLast?_eq_getLast _ hne] at hc
    have h3 : (List.rdropWhile isSpace (s.dropWhile isSpace)).getLast hne = c := by simpa using hc
    rw [← h3]; simpa using h1

theorem trimSpace_idem (s : Str) : trimSpace (trimSpace s) = trimSpace s :=
  trimSpace_of_trimmed (trimmed_trimSpace s)

theorem dropWhile_space_append_left {a : Str} (s : Str) (ha : ∀ c ∈ a, isSpace c = true) :
    (a ++ s).dropWhile isSpace = s.dropWhile isSpace := by
  induction a with
  | nil => rfl
  | cons x t ih =>
    have hx := ha x (by simp)
    simp only [List.cons_append, List.dropWhile_cons, hx, if_true]
    exact ih (fun c hc => ha c (by simp [hc]))

theorem trimSpace_append_left {a : Str} (s : Str) (ha : ∀ c ∈ a, isSpace c = true) :
    trimSpace (a ++ s) = trimSpace s := by
  unfold trimSpace
  rw [dropWhile_space_append_left s ha]

theorem rdropWhile_space_append_right (s : Str) {b : Str} (hb : ∀ c ∈ b, isSpace c = true) :
    (s ++ b).rdropWhile isSpace = s.rdropWhile isSpace := by
  unfold List.rdropWhile
  rw [List.reverse_append, dropWhile_space_append_left]
  intro c hc
  exact hb c (by simpa using hc)

theorem trimSpace_append_right_of_ne (s : Str) {b : Str} (hb : ∀ c ∈ b, isSpace c = true)
    (hs : ∃ c ∈ s, isSpace c = false) : trimSpace (s ++ b) = trimSpace s := by
  unfold trimSpace
  obtain ⟨c, hc, hcs⟩ := hs
  have key : ∀ (u : Str), (∃ c ∈ u, isSpace c = false) →
      (u ++ b).dropWhile isSpace = u.dropWhile isSpace ++ b := by
    intro u
    induction u with
    | nil => intro h; simp at h
    | cons x t ih =>
      intro h
      by_cases hx : isSpace x = true
      · simp only [List.cons_append, List.dropWhile_cons, hx, if_true]
        apply ih
        obtain ⟨d, hd, hds⟩ := h
        rcases List.mem_cons.1 hd with rfl | hd
        · rw [hx] at hds; cases hds
        · exact ⟨d, hd, hds⟩
      · simp [List.dropWhile_cons, hx]
  rw [key s ⟨c, hc, hcs⟩, rdropWhile_space_append_right _ hb]

theorem trimSpace_eq_nil_iff (s : Str) : trimSpace s = [] ↔ ∀ c ∈ s, isSpace c = true := by
  unfold trimSpace
  rw [List.rdropWhile_eq_nil_iff]
  constructor
  · intro h
    by_contra hcon
    push_neg at hcon
    obtain ⟨c, hc, hcs⟩ := hcon
    have hne : s.dropWhile isSpace ≠ [] := by
      rw [Ne, List.dropWhile_eq_nil_iff]
      intro hall
      exact hcs (hall c hc)
    have h1 := List.head_dropWhile_not isSpace s hne
    have h2 := h _ (List.head_mem hne)
    rw [h1] at h2; cases h2
  · intro h
    have : s.dropWhile isSpace = [] := List.dropWhile_eq_nil_iff.2 h
    rw [this]; simp

theorem trimSpace_append_right (s : Str) {b : Str} (hb : ∀ c ∈ b, isSpace c = true) :
    trimSpace (s ++ b) = trimSpace s := by
  by_cases hs : ∃ c ∈ s, isSpace c = false
  · exact trimSpace_append_right_of_ne s hb hs
  · push_neg at hs
    have hs2 : ∀ c ∈ s, isSpace c = true := fun c hc => by simpa using hs c hc
    rw [(trimSpace_eq_nil_iff s).2 hs2, trimSpace_eq_nil_iff]
    intro c hc
    rcases List.mem_append.1 hc with h | h
    · exact hs2 c h
    · exact hb c h

/-! ## The query builder -/

theorem foldl_append_map {α : Type} (f : α → Str) (l : List α) (init : List Str) :
    l.foldl (fun parts k => parts ++ [f k]) init = init ++ l.map f := by
  induction l generalizing init with
  | nil => simp
  | cons a t ih => simp [ih]

theorem buildParts_eq (vendors keywords : List Str) (proxStr : Str) :
    buildParts vendors keywords proxStr =
      vendors.flatMap (fun v => keywords.map (fun k => clause v k proxStr)) := by
  unfold buildParts
  suffices h : ∀ init : List Str,
      vendors.foldl
        (fun parts v => keywords.foldl (fun parts k => parts ++ [clause v k proxStr]) parts) init =
      init ++ vendors.flatMap (fun v => keywords.map (fun k => clause v k proxStr)) by
    simpa using h []
  induction vendors with
  | nil => intro init; simp
  | cons v t ih =>
    intro init
    simp only [List.foldl_cons, List.flatMap_cons]
    rw [ih, foldl_append_map (fun k => clause v k proxStr), List.append_assoc]

theorem length_buildParts (vendors keywords : List Str) (proxStr : Str) :
    (buildParts vendors keywords proxStr).length = vendors.length * keywords.length := by
  rw [buildParts_eq]
  induction vendors with
  | nil => simp
  | cons v t ih => simp [List.flatMap_cons, ih, Nat.succ_mul, Nat.add_comm]

theorem join_suffix (sep : Str) (parts : List Str) (h : parts ≠ []) :
    ∃ pre, join parts sep = pre ++ parts.getLast h := by
  induction parts with
  | nil => exact absurd rfl h
  | cons x t ih =>
    cases t with
    | nil => exact ⟨[], by simp [join, List.intercalate]⟩
    | cons y u =>
      obtain ⟨pre, hpre⟩ := ih (by simp)
      refine ⟨x ++ sep ++ pre, ?_⟩
      have : join (x :: y :: u) sep = x ++ sep ++ join (y :: u) sep := by
        simp [join, List.intercalate]
      rw [this, hpre]
      simp

theorem proximityOf_ne_nil (answer : Str) : proximityOf answer ≠ [] := by
  unfold proximityOf readLine
  by_cases h : trimSpace (trimSpace answer) = []
  · simp [h]
  · rw [trimSpace_idem] at h
    simp only [trimSpace_idem, h, if_false]
    exact h

theorem trimmed_proximityOf (answer : Str) : Trimmed (proximityOf answer) := by
  unfold proximityOf readLine
  by_cases h : trimSpace (trimSpace answer) = []
  · simp only [h, if_true]
    constructor <;> intro c hc <;> simp at hc <;> subst hc <;> decide
  · simp only [h, if_false]
    exact trimmed_trimSpace answer

theorem getLast_buildQuery (vendors keywords : List Str) (proxStr : Str)
    (hV : vendors ≠ []) (hK : keywords ≠ []) (hp : proxStr ≠ []) :
    (buildQuery vendors keywords proxStr []).getLast? = proxStr.getLast? := by
  have hparts : buildParts vendors keywords proxStr ≠ [] := by
    intro h0
    have := length_buildParts vendors keywords proxStr
    rw [h0] at this
    have h1 : 0 < vendors.length := List.length_pos.2 hV
    have h2 : 0 < keywords.length := List.length_pos.2 hK
    have h3 := Nat.mul_pos h1 h2
    simp only [List.length_nil] at this
    omega
  obtain ⟨pre, hpre⟩ := join_suffix " OR ".toList _ hparts
  have hmem : (buildParts vendors keywords proxStr).getLast hparts ∈
      vendors.flatMap (fun v => keywords.map (fun k => clause v k proxStr)) := by
    exact (buildParts_eq vendors keywords proxStr) ▸ List.getLast_mem hparts
  obtain ⟨v, -, hk⟩ := List.mem_flatMap.1 hmem
  obtain ⟨k, -, hcl⟩ := List.mem_map.1 hk
  have hq : buildQuery vendors keywords proxStr [] =
      (pre ++ (['"'] ++ v ++ [' '] ++ k ++ ['"', ' ', '~'])) ++ proxStr := by
    simp only [buildQuery, ne_eq, not_true_eq_false, if_false]
    rw [hpre, ← hcl, clause]
    simp
  rw [hq, List.getLast?_append]
  rw [List.getLast?_eq_getLast _ hp]
  rfl

/-- C1. With an empty tail the query is the `" OR "`-join of the clauses
`"<v> <k>" ~<p>`, one for each vendor and keyword, in vendor order with the
keyword varying fastest; there are `|V| * |K|` clauses, the vendor, the keyword
and the proximity text stand in them unchanged, and nothing follows the last one. -/
theorem buildQuery_no_tail (V K : List Str) (p : Str) :
    buildQuery V K p [] =
      " OR ".toList.intercalate
        (V.flatMap (fun v => K.map (fun k => '"' :: (v ++ ' ' :: (k ++ '"' :: ' ' :: '~' :: p)))))
    ∧ (buildParts V K p).length = V.length * K.length := by
  refine ⟨?_, length_buildParts V K p⟩
  simp only [buildQuery, ne_eq, not_true_eq_false, if_false, join]
  rw [buildParts_eq]
  congr 2
  funext v
  congr 1
  funext k
  simp [clause]

/-- C2. For non-empty vendor and keyword lists, the proximity text as `main`
supplies it and a tail that is non-empty after trimming, the query is the
tail-less query, one space, and the trimmed tail; the tail-less query ends in a
character that is not a space and the trimmed tail starts with one that is not
a space, so exactly one space stands at the junction. -/
theorem mainQuery_with_tail (V K : List Str) (proxAnswer tailAnswer : Str)
    (hV : V ≠ []) (hK : K ≠ []) (ht : trimSpace tailAnswer ≠ []) :
    mainQuery V K proxAnswer tailAnswer =
      buildQuery V K (proximityOf proxAnswer) [] ++ [' '] ++ trimSpace tailAnswer
    ∧ (∃ c, (buildQuery V K (proximityOf proxAnswer) []).getLast? = some c ∧
        c ≠ ' ' ∧ isSpace c = false)
    ∧ (∃ c, (trimSpace tailAnswer).head? = some c ∧ c ≠ ' ' ∧ isSpace c = false) := by
  have hsp : ∀ c : Char, isSpace c = false → c ≠ ' ' := by
    intro c hc h; subst h; revert hc; decide
  obtain ⟨c, hc⟩ : ∃ c, (trimSpace tailAnswer).head? = some c := by
    cases h : trimSpace tailAnswer with
    | nil => exact absurd h ht
    | cons a t => exact ⟨a, rfl⟩
  have hcs := (trimmed_trimSpace tailAnswer).1 c hc
  refine ⟨?_, ?_, ⟨c, hc, hsp c hcs, hcs⟩⟩
  · have htail : tailOf tailAnswer = trimSpace tailAnswer := by
      simp [tailOf, readLine, trimSpace_idem]
    have hpre : hasPrefix (trimSpace tailAnswer) [' '] = false := by
      cases h : trimSpace tailAnswer with
      | nil => exact absurd h ht
      | cons a t =>
        rw [h] at hc
        have hac : a = c := by simpa using hc
        have := hsp c hcs
        simp [hasPrefix, List.isPrefixOf, hac, this, Ne.symm this]
    simp only [mainQuery, htail]
    simp only [buildQuery, ne_eq, ht, not_false_eq_true, if_true, hpre, Bool.not_false,
      not_true_eq_false, if_false]
  · have hp := proximityOf_ne_nil proxAnswer
    rw [getLast_buildQuery V K _ hV hK hp]
    refine ⟨(proximityOf proxAnswer).getLast hp, List.getLast?_eq_getLast _ hp, ?_⟩
    have := (trimmed_proximityOf proxAnswer).2 _ (List.getLast?_eq_getLast _ hp)
    exact ⟨hsp _ this, this⟩

/-- C2, at the vendors `Zoom`, the keyword `hacked`, a blank proximity answer
and the tail `NOT crawler: paste*`. -/
theorem mainQuery_with_tail_witness :
    mainQuery ["Zoom".toList] ["hacked".toList] " \n".toList " NOT crawler: paste*\n".toList =
      buildQuery ["Zoom".toList] ["hacked".toList] (proximityOf " \n".toList) [] ++ [' '] ++
        trimSpace " NOT crawler: paste*\n".toList
    ∧ (∃ c, (buildQuery ["Zoom".toList] ["hacked".toList] (proximityOf " \n".toList) []).getLast?
        = some c ∧ c ≠ ' ' ∧ isSpace c = false)
    ∧ (∃ c, (trimSpace " NOT crawler: paste*\n".toList).head? = some c ∧ c ≠ ' ' ∧
        isSpace c = false) :=
  mainQuery_with_tail ["Zoom".toList] ["hacked".toList] " \n".toList
    " NOT crawler: paste*\n".toList (by decide) (by decide) (by decide)

/-! ## The list normaliser -/

theorem mem_removeLaterDuplicates (l : List Str) (x : Str) :
    x ∈ removeLaterDuplicates l ↔ x ∈ l := by
  induction l with
  | nil => simp [removeLaterDuplicates]
  | cons a t ih =>
    simp only [removeLaterDuplicates, List.mem_cons, List.mem_filter, ih]
    by_cases h : x = a <;> simp [h]

theorem nodup_removeLaterDuplicates (l : List Str) : (removeLaterDuplicates l).Nodup := by
  induction l with
  | nil => simp [removeLaterDuplicates]
  | cons a t ih =>
    simp only [removeLaterDuplicates, List.nodup_cons]
    exact ⟨by simp [List.mem_filter], ih.filter _⟩

theorem sublist_removeLaterDuplicates (l : List Str) : (removeLaterDuplicates l).Sublist l := by
  induction l with
  | nil => simp [removeLaterDuplicates]
  | cons a t ih =>
    simp only [removeLaterDuplicates]
    exact ((List.filter_sublist _).trans ih).cons₂ a

theorem foldl_normStep (items : List Str) (st : NormState) :
    (items.foldl normStep st).out =
      st.out ++ (normalizeListSpec items).filter (fun y => decide (y ∉ st.seen)) := by
  induction items generalizing st with
  | nil => simp [normalizeListSpec, removeLaterDuplicates]
  | cons it rest ih =>
    rw [List.foldl_cons, ih]
    unfold normalizeListSpec at *
    by_cases hk : trimSpace it = []
    · simp [normStep, hk]
    · by_cases hs : trimSpace it ∈ st.seen
      · simp only [normStep, hk, hs, if_true, if_false, List.map_cons, List.filter_cons,
          ne_eq, not_false_eq_true, decide_True, removeLaterDuplicates, not_true_eq_false,
          decide_False, List.filter_filter]
        congr 1
        apply List.filter_congr
        intro y _
        by_cases hy : y ∈ st.seen
        · simp [hy]
        · have : y ≠ trimSpace it := fun h => hy (h ▸ hs)
          simp [hy, this]
      · simp only [normStep, hk, hs, if_false, List.map_cons, List.filter_cons,
          ne_eq, not_false_eq_true, decide_True, removeLaterDuplicates, if_true,
          List.filter_filter, List.append_assoc, List.singleton_append]
        congr 2
        apply List.filter_congr
        intro y _
        by_cases hy : y = trimSpace it <;> simp [hy, hs]

theorem normalizeList_eq_spec (items : List Str) : normalizeList items = normalizeListSpec items := by
  unfold normalizeList
  rw [foldl_normStep]
  simp

theorem mem_normalizeList (items : List Str) (x : Str) :
    x ∈ normalizeList items ↔ x ≠ [] ∧ ∃ it ∈ items, trimSpace it = x := by
  rw [normalizeList_eq_spec, normalizeListSpec, mem_removeLaterDuplicates]
  simp only [List.mem_filter, List.mem_map, ne_eq, decide_eq_true_eq]
  tauto

theorem nodup_normalizeList (items : List Str) : (normalizeList items).Nodup := by
  rw [normalizeList_eq_spec]
  exact nodup_removeLaterDuplicates _

/-- C3. The function `normalizeList` is its reference definition: the items
trimmed, the empty ones dropped, and every item that equals an earlier one
removed. The result has no duplicate, holds exactly the non-empty trimmed
values of the input, and keeps their relative order. -/
theorem normalizeList_refines_spec (items : List Str) :
    normalizeList items =
      removeLaterDuplicates ((items.map trimSpace).filter (fun k => decide (k ≠ [])))
    ∧ (normalizeList items).Nodup
    ∧ (∀ x, x ∈ normalizeList items ↔ x ≠ [] ∧ ∃ it ∈ items, trimSpace it = x)
    ∧ (normalizeList items).Sublist ((items.map trimSpace).filter (fun k => decide (k ≠ []))) := by
  refine ⟨normalizeList_eq_spec items, nodup_normalizeList items, mem_normalizeList items, ?_⟩
  rw [normalizeList_eq_spec]
  exact sublist_removeLaterDuplicates _

/-! ## The field splitter -/

theorem splitOnP_cons_neg {p : Char → Bool} {x : Char} (xs : Str) (h : p x = false) :
    ∃ hd tl, xs.splitOnP p = hd :: tl ∧ (x :: xs).splitOnP p = (x :: hd) :: tl := by
  cases hxs : xs.splitOnP p with
  | nil => exact absurd hxs (List.splitOnP_ne_nil p xs)
  | cons hd tl =>
    refine ⟨hd, tl, rfl, ?_⟩
    rw [List.splitOnP_cons, hxs]
    simp [h, List.modifyHead]

theorem splitOnP_cons_pos {p : Char → Bool} {x : Char} (xs : Str) (h : p x = true) :
    (x :: xs).splitOnP p = [] :: xs.splitOnP p := by
  rw [List.splitOnP_cons]; simp [h]

theorem not_of_mem_splitOnP {p : Char → Bool} (s : Str) :
    ∀ seg ∈ s.splitOnP p, ∀ c ∈ seg, p c = false := by
  induction s with
  | nil => intro seg hseg c hc; simp at hseg; subst hseg; simp at hc
  | cons x xs ih =>
    intro seg hseg c hc
    by_cases hx : p x = true
    · rw [splitOnP_cons_pos xs hx] at hseg
      rcases List.mem_cons.1 hseg with h | h
      · subst h; simp at hc
      · exact ih seg h c hc
    · have hx2 : p x = false := by simpa using hx
      obtain ⟨hd, tl, h1, h2⟩ := splitOnP_cons_neg xs hx2
      rw [h2] at hseg
      rw [h1] at ih
      rcases List.mem_cons.1 hseg with h | h
      · subst h
        rcases List.mem_cons.1 hc with h3 | h3
        · rw [h3]; exact hx2
        · exact ih hd (by simp) c h3
      · exact ih seg (by simp [h]) c hc

theorem length_splitOnP (p : Char → Bool) (s : Str) :
    (s.splitOnP p).length = (s.filter p).length + 1 := by
  induction s with
  | nil => simp
  | cons x xs ih =>
    by_cases hx : p x = true
    · rw [splitOnP_cons_pos xs hx]; simp [hx, ih]
    · have hx2 : p x = false := by simpa using hx
      obtain ⟨hd, tl, h1, h2⟩ := splitOnP_cons_neg xs hx2
      rw [h2, List.filter_cons_of_neg hx, ← ih, h1]
      simp

theorem split_replaceAll (s : Str) :
    split (replaceAll s ';' ',') ',' = s.splitOnP isSeparator := by
  unfold split replaceAll
  induction s with
  | nil => simp
  | cons x xs ih =>
    by_cases hx : isSeparator x = true
    · rw [splitOnP_cons_pos xs hx, List.map_cons, splitOnP_cons_pos _ _, ih]
      simp only [isSeparator, Bool.or_eq_true, beq_iff_eq] at hx
      rcases hx with h | h <;> simp [h]
    · have hx2 : isSeparator x = false := by simpa using hx
      obtain ⟨hd, tl, h1, h2⟩ := splitOnP_cons_neg xs hx2
      simp only [isSeparator, Bool.or_eq_false_iff, beq_eq_false_iff_ne, ne_eq] at hx2
      have hfx : (if x = ';' then ',' else x) = x := by simp [hx2.2]
      rw [h2, List.map_cons, hfx]
      have hx3 : (fun c : Char => c == ',') x = false := by simp [hx2.1]
      obtain ⟨hd', tl', h1', h2'⟩ := @splitOnP_cons_neg (fun c : Char => c == ',') x
        (List.map (fun c => if c = ';' then ',' else c) xs) hx3
      rw [h2']
      rw [ih, h1] at h1'
      injection h1' with ha hb
      rw [ha, hb]

theorem foldl_trim_keep (parts out : List Str) :
    parts.foldl (fun out p => if trimSpace p ≠ [] then out ++ [trimSpace p] else out) out =
      out ++ (parts.map trimSpace).filter (fun t => decide (t ≠ [])) := by
  induction parts generalizing out with
  | nil => simp
  | cons a t ih =>
    rw [List.foldl_cons, ih]
    by_cases h : trimSpace a = [] <;> simp [h]

theorem trimmed_of_no_space {s : Str} (h : ∀ c ∈ s, isSpace c = false) : Trimmed s := by
  constructor
  · intro c hc
    exact h c (List.mem_of_mem_head? hc)
  · intro c hc
    exact h c (List.mem_of_mem_getLast? hc)

theorem replaceAll_of_no_separator {s : Str} (h : s.any isSeparator = false) :
    replaceAll s ';' ',' = s := by
  unfold replaceAll
  conv_rhs => rw [← List.map_id s]
  apply List.map_congr_left
  intro c hc
  have := (List.any_eq_false.1 h) c hc
  simp only [isSeparator, Bool.or_eq_true, beq_iff_eq, not_or] at this
  simp [this.2]

theorem splitCSV_eq_spec (s : Str) : splitCSV s = splitCSVSpec s := by
  unfold splitCSV splitCSVSpec
  simp only [split_replaceAll, length_splitOnP]
  have hfold := foldl_trim_keep
  simp only [List.nil_append] at hfold
  by_cases hany : s.any isSeparator = true
  · have hlen : ¬ ((s.filter isSeparator).length + 1 = 1) := by
      obtain ⟨c, hc, hcs⟩ := List.any_eq_true.1 hany
      have : c ∈ s.filter isSeparator := List.mem_filter.2 ⟨hc, hcs⟩
      have := List.length_pos_of_mem this
      omega
    simp only [hlen, if_false, hany, if_true]
    exact (hfold _ []).trans (by simp)
  · have hany2 : s.any isSeparator = false := by simpa using hany
    have hlen : (s.filter isSeparator).length + 1 = 1 := by
      have : s.filter isSeparator = [] := by
        rw [List.filter_eq_nil_iff]
        intro c hc
        have := (List.any_eq_false.1 hany2) c hc
        simpa using this
      simp [this]
    simp only [hlen, if_true, hany2, Bool.false_eq_true, if_false]
    rw [replaceAll_of_no_separator hany2]
    refine ((hfold _ []).trans ?_)
    simp only [List.nil_append, fields]
    have hid : (List.filter (fun f => !f.isEmpty) (List.splitOnP isSpace s)).map trimSpace =
        List.filter (fun f => !f.isEmpty) (List.splitOnP isSpace s) := by
      conv_rhs => rw [← List.map_id (List.filter (fun f => !f.isEmpty) (List.splitOnP isSpace s))]
      apply List.map_congr_left
      intro f hf
      have hf1 := (List.mem_filter.1 hf).1
      exact trimSpace_of_trimmed (trimmed_of_no_space (not_of_mem_splitOnP s f hf1))
    rw [hid, List.filter_filter]
    apply List.filter_congr
    intro f _
    cases f <;> simp

theorem splitCSV_tokens (s : Str) : ∀ t ∈ splitCSV s, t ≠ [] ∧ Trimmed t := by
  intro t ht
  unfold splitCSV at ht
  have hfold := foldl_trim_keep
  simp only [] at ht
  rw [hfold] at ht
  simp only [List.nil_append, List.mem_filter, List.mem_map, decide_eq_true_eq] at ht
  obtain ⟨⟨p, -, rfl⟩, hne⟩ := ht
  exact ⟨hne, trimmed_trimSpace p⟩

/-- C5. The function `splitCSV` is its two-tier reference definition: with a
comma or a semicolon in the chunk, the segments between the separators, each
trimmed, the empty ones dropped, with no split at white space; without one,
the maximal runs of characters that are not white space. Every token returned
is non-empty and has no leading or trailing white space. -/
theorem splitCSV_refines_spec (s : Str) :
    splitCSV s =
      (if s.any isSeparator then
        ((s.splitOnP isSeparator).map trimSpace).filter (fun t => decide (t ≠ []))
      else (s.splitOnP isSpace).filter (fun t => decide (t ≠ [])))
    ∧ ∀ t ∈ splitCSV s, t ≠ [] ∧ Trimmed t :=
  ⟨splitCSV_eq_spec s, splitCSV_tokens s⟩

/-! ## The invariant of the parser's result -/

theorem finish_ok {a b v k : List Str} (h : finish a b = .ok (v, k)) :
    a = v ∧ b = k ∧ v ≠ [] ∧ k ≠ [] := by
  unfold finish at h
  split_ifs at h with hc
  simp only [Except.ok.injEq, Prod.mk.injEq] at h
  obtain ⟨rfl, rfl⟩ := h
  simp only [List.length_eq_zero, not_or] at hc
  exact ⟨rfl, rfl, hc.1, hc.2⟩

theorem fallbackPass_ok {content : Str} {a b v k : List Str}
    (ha : ∃ a', a = normalizeList a') (hb : ∃ b', b = normalizeList b')
    (h : fallbackPass content a b = .ok (v, k)) :
    (∃ a', v = normalizeList a') ∧ (∃ b', k = normalizeList b') ∧ v ≠ [] ∧ k ≠ [] := by
  unfold fallbackPass at h
  simp only [] at h
  split_ifs at h with hc
  · split at h
    · obtain ⟨h1, h2, h3, h4⟩ := finish_ok h
      exact ⟨⟨_, h1.symm⟩, ⟨_, h2.symm⟩, h3, h4⟩
    · cases h
  · obtain ⟨h1, h2, h3, h4⟩ := finish_ok h
    subst h1 h2
    exact ⟨ha, hb, h3, h4⟩

theorem parse_ok_normalized {content : Str} {v k : List Str}
    (h : parseVendorsKeywords content = .ok (v, k)) :
    (∃ a', v = normalizeList a') ∧ (∃ b', k = normalizeList b') ∧ v ≠ [] ∧ k ≠ [] := by
  unfold parseVendorsKeywords at h
  cases hr : readRawLines content with
  | error e => rw [hr] at h; cases h
  | ok rawLines =>
    rw [hr] at h
    simp only [] at h
    split_ifs at h with hc
    · simp only [Except.ok.injEq] at h
      have h1 : v = (labeledPass rawLines).1 := by rw [h]
      have h2 : k = (labeledPass rawLines).2 := by rw [h]
      refine ⟨⟨_, h1⟩, ⟨_, h2⟩, ?_, ?_⟩
      · rw [h1]; exact List.length_pos.1 hc.1
      · rw [h2]; exact List.length_pos.1 hc.2
    · exact fallbackPass_ok ⟨_, rfl⟩ ⟨_, rfl⟩ h

theorem normalizeList_entries (items : List Str) :
    ∀ x ∈ normalizeList items, x ≠ [] ∧ Trimmed x := by
  intro x hx
  obtain ⟨hne, it, -, rfl⟩ := (mem_normalizeList items x).1 hx
  exact ⟨hne, trimmed_trimSpace it⟩

/-- C4. Whenever `parseVendorsKeywords` succeeds, by the labeled pass or by the
fallback pass, both lists are non-empty and without duplicates, and every entry
is non-empty without leading or trailing white space; `main` then proceeds, its
check for an empty list is not taken. -/
theorem parse_ok_invariant (content : Str) (v k : List Str)
    (h : parseVendorsKeywords content = .ok (v, k)) :
    v ≠ [] ∧ k ≠ [] ∧ v.Nodup ∧ k.Nodup
    ∧ (∀ x ∈ v, x ≠ [] ∧ Trimmed x) ∧ (∀ x ∈ k, x ≠ [] ∧ Trimmed x)
    ∧ mainParse content = .proceeds v k := by
  obtain ⟨⟨a, rfl⟩, ⟨b, rfl⟩, hv, hk⟩ := parse_ok_normalized h
  refine ⟨hv, hk, nodup_normalizeList a, nodup_normalizeList b, normalizeList_entries a,
    normalizeList_entries b, ?_⟩
  unfold mainParse
  rw [h]
  simp [hv, hk]

/-- C4, at an inline-labeled file with a repeated vendor. -/
theorem parse_ok_invariant_witness :
    ["Zoom".toList, "Slack".toList] ≠ [] ∧ ["hacked".toList] ≠ []
    ∧ ["Zoom".toList, "Slack".toList].Nodup ∧ ["hacked".toList].Nodup
    ∧ (∀ x ∈ ["Zoom".toList, "Slack".toList], x ≠ [] ∧ Trimmed x)
    ∧ (∀ x ∈ ["hacked".toList], x ≠ [] ∧ Trimmed x)
    ∧ mainParse "vendors: Zoom, Slack, Zoom\nkeywords: hacked\n".toList =
        .proceeds ["Zoom".toList, "Slack".toList] ["hacked".toList] :=
  parse_ok_invariant "vendors: Zoom, Slack, Zoom\nkeywords: hacked\n".toList
    ["Zoom".toList, "Slack".toList] ["hacked".toList] (by decide)

/-! ## The first pass: scanning the file -/

theorem scanAux_snd (segs : List Str) : (scanAux segs).2 = segs.any tooLong := by
  induction segs with
  | nil => rfl
  | cons a t ih =>
    by_cases h : maxScanTokenSize ≤ byteLen a
    · simp [scanAux, h, tooLong]
    · simp [scanAux, h, tooLong, ih]

theorem scanAux_fst {segs : List Str} (h : segs.any tooLong = false) :
    (scanAux segs).1 = segs.map dropCR := by
  induction segs with
  | nil => rfl
  | cons a t ih =>
    simp only [List.any_cons, Bool.or_eq_false_iff] at h
    have ha : ¬ maxScanTokenSize ≤ byteLen a := by
      have := h.1
      simpa [tooLong] using this
    simp [scanAux, ha, ih h.2]

theorem isSpace_cr : isSpace '\r' = true := by decide

theorem trimSpace_dropCR (s : Str) : trimSpace (dropCR s) = trimSpace s := by
  unfold dropCR
  cases h : s.getLast? with
  | none => rfl
  | some c =>
    simp only []
    split_ifs with hc
    · subst hc
      have hs := List.dropLast_append_getLast? _ h
      conv_rhs => rw [← hs]
      rw [trimSpace_append_right]
      intro c hc
      simp only [List.mem_singleton] at hc
      subst hc
      exact isSpace_cr
    · rfl

theorem collectRawLines_eq (tokens : List Str) :
    collectRawLines tokens = (tokens.map trimSpace).filter isContentLine := by
  unfold collectRawLines
  suffices h : ∀ init : List Str,
      tokens.foldl (fun rawLines text =>
        let line := trimSpace text
        if line = [] ∨ hasPrefix line ['#'] then rawLines else rawLines ++ [line]) init =
      init ++ (tokens.map trimSpace).filter isContentLine by
    simpa using h []
  induction tokens with
  | nil => intro init; simp
  | cons a t ih =>
    intro init
    rw [List.foldl_cons, ih]
    by_cases h1 : trimSpace a = []
    · simp [h1, isContentLine]
    · by_cases h2 : hasPrefix (trimSpace a) ['#'] = true
      · simp [h1, h2, isContentLine]
      · simp [h1, h2, isContentLine]

theorem scanSegments_cases (content : Str) :
    scanSegments content = linesOf content ∨ linesOf content = scanSegments content ++ [[]] := by
  unfold scanSegments linesOf
  simp only []
  cases h : (split content '\n').getLast? with
  | none => left; rfl
  | some a =>
    cases a with
    | nil =>
      right
      simp only []
      exact (List.dropLast_append_getLast? _ h).symm
    | cons x t => left; rfl

theorem tooLong_nil : tooLong [] = false := by
  simp [tooLong, byteLen, maxScanTokenSize]

theorem isContentLine_nil : isContentLine [] = false := by
  simp [isContentLine]

theorem scanLines_snd (content : Str) :
    (scanLines content).2 = (linesOf content).any tooLong := by
  unfold scanLines
  rw [scanAux_snd]
  rcases scanSegments_cases content with h | h
  · rw [h]
  · rw [h, List.any_append]
    simp [tooLong_nil]

theorem scanLines_fst {content : Str} (h : (linesOf content).any tooLong = false) :
    collectRawLines (scanLines content).1 = rawLinesOf content := by
  have h2 : (scanSegments content).any tooLong = false := by
    rw [← scanAux_snd]
    exact (scanLines_snd content).trans h
  unfold scanLines
  rw [scanAux_fst h2, collectRawLines_eq, rawLinesOf, List.map_map]
  have hfun : trimSpace ∘ dropCR = trimSpace := by
    funext s; exact trimSpace_dropCR s
  rw [hfun]
  rcases scanSegments_cases content with h3 | h3
  · rw [h3]
  · rw [h3, List.map_append, List.filter_append]
    simp [trimSpace_nil, isContentLine_nil]

theorem readRawLines_eq (content : Str) :
    readRawLines content =
      if (linesOf content).any tooLong then .error .scanner
      else if rawLinesOf content = [] then .error .emptyFile
      else .ok (rawLinesOf content) := by
  unfold readRawLines
  simp only [scanLines_snd]
  by_cases h : (linesOf content).any tooLong = true
  · simp [h]
  · have h2 : (linesOf content).any tooLong = false := by simpa using h
    rw [scanLines_fst h2]
    simp [h2]

theorem parse_eq (content : Str) :
    parseVendorsKeywords content =
      if (linesOf content).any tooLong then .error .scanner
      else if rawLinesOf content = [] then .error .emptyFile
      else if 0 < (labeledPass (rawLinesOf content)).1.length ∧
          0 < (labeledPass (rawLinesOf content)).2.length then
        .ok (labeledPass (rawLinesOf content))
      else fallbackPass content (labeledPass (rawLinesOf content)).1
        (labeledPass (rawLinesOf content)).2 := by
  unfold parseVendorsKeywords
  rw [readRawLines_eq]
  by_cases h1 : (linesOf content).any tooLong = true
  · simp [h1]
  · by_cases h2 : rawLinesOf content = []
    · simp [h1, h2]
    · simp [h1, h2]

theorem byteLen_replicate (n : Nat) (c : Char) (h : utf8Len c = 1) :
    byteLen (List.replicate n c) = n := by
  induction n with
  | zero => rfl
  | succ k ih =>
    simp only [byteLen, List.replicate_succ, List.map_cons, List.sum_cons, h] at ih ⊢
    omega

theorem linesOf_of_no_newline {s : Str} (h : ∀ c ∈ s, c ≠ '\n') : linesOf s = [s] := by
  unfold linesOf split
  apply List.splitOnP_eq_single
  intro c hc
  simpa using h c hc

theorem parse_long_line (content : Str) (h : ∃ l ∈ linesOf content, maxScanTokenSize ≤ byteLen l) :
    parseVendorsKeywords content = .error .scanner := by
  rw [parse_eq]
  have : (linesOf content).any tooLong = true := by
    obtain ⟨l, hl, hlen⟩ := h
    exact List.any_eq_true.2 ⟨l, hl, by simpa [tooLong] using hlen⟩
  simp [this]

theorem rawLinesOf_eq_nil {content : Str}
    (h : ∀ l ∈ linesOf content, trimSpace l = [] ∨ hasPrefix (trimSpace l) ['#'] = true) :
    rawLinesOf content = [] := by
  unfold rawLinesOf
  rw [List.filter_eq_nil_iff]
  intro t ht
  obtain ⟨l, hl, rfl⟩ := List.mem_map.1 ht
  rcases h l hl with h1 | h1 <;> simp [isContentLine, h1]

/-- C7, as stated, fails: a file whose only line is a comment of 65536 bytes
fails with the error of the scanner, not with the error of an empty file. -/
theorem empty_content_counterexample :
    (∀ l ∈ linesOf (List.replicate 65536 '#'),
        trimSpace l = [] ∨ hasPrefix (trimSpace l) ['#'] = true)
    ∧ parseVendorsKeywords (List.replicate 65536 '#') = .error .scanner
    ∧ parseVendorsKeywords (List.replicate 65536 '#') ≠ .error .emptyFile := by
  have hno : ∀ c ∈ List.replicate 65536 '#', c ≠ '\n' := by
    intro c hc
    rw [List.eq_of_mem_replicate hc]
    decide
  have hlines := linesOf_of_no_newline hno
  have hparse : parseVendorsKeywords (List.replicate 65536 '#') = .error .scanner := by
    apply parse_long_line
    refine ⟨_, by rw [hlines]; exact List.mem_singleton_self _, ?_⟩
    rw [byteLen_replicate _ _ (by decide)]
    decide
  refine ⟨?_, hparse, by rw [hparse]; decide⟩
  intro l hl
  rw [hlines] at hl
  rw [List.mem_singleton.1 hl]
  right
  have htrim : trimSpace (List.replicate 65536 '#') = List.replicate 65536 '#' := by
    apply trimSpace_of_trimmed
    apply trimmed_of_no_space
    intro c hc
    rw [List.eq_of_mem_replicate hc]
    decide
  rw [htrim]
  show hasPrefix (List.replicate (65535 + 1) '#') ['#'] = true
  rw [List.replicate_succ]
  simp [hasPrefix, List.isPrefixOf]

/-- C7, amended. For every file content in which every line is blank or starts
with `#` after trimming, the first part of the parser fails, so neither the
labeled pass nor the fallback pass is reached, no index is used and no pair of
lists is returned; the error is that of an empty file when every line is
shorter than the scanner's 65536 bytes, and that of the scanner otherwise. -/
theorem empty_content_fails (content : Str)
    (h : ∀ l ∈ linesOf content, trimSpace l = [] ∨ hasPrefix (trimSpace l) ['#'] = true) :
    readRawLines content =
      (if (linesOf content).any tooLong then .error .scanner else .error .emptyFile)
    ∧ parseVendorsKeywords content =
      (if (linesOf content).any tooLong then .error .scanner else .error .emptyFile)
    ∧ ((∀ l ∈ linesOf content, byteLen l < maxScanTokenSize) →
        parseVendorsKeywords content = .error .emptyFile) := by
  have hraw := rawLinesOf_eq_nil h
  have h1 : parseVendorsKeywords content =
      (if (linesOf content).any tooLong then .error .scanner else .error .emptyFile) := by
    rw [parse_eq, hraw]; simp
  refine ⟨?_, h1, ?_⟩
  · rw [readRawLines_eq, hraw]; simp
  · intro hshort
    rw [h1]
    have : (linesOf content).any tooLong = false := by
      rw [List.any_eq_false]
      intro l hl
      have := hshort l hl
      simp only [tooLong, decide_eq_true_eq]
      omega
    simp [this]

/-- C7, amended, at a file of a comment, a blank line and a line of spaces. -/
theorem empty_content_fails_witness :
    readRawLines "# only\n\n  \n".toList =
      (if (linesOf "# only\n\n  \n".toList).any tooLong then .error .scanner
        else .error .emptyFile)
    ∧ parseVendorsKeywords "# only\n\n  \n".toList =
      (if (linesOf "# only\n\n  \n".toList).any tooLong then .error .scanner
        else .error .emptyFile)
    ∧ ((∀ l ∈ linesOf "# only\n\n  \n".toList, byteLen l < maxScanTokenSize) →
        parseVendorsKeywords "# only\n\n  \n".toList = .error .emptyFile) :=
  empty_content_fails "# only\n\n  \n".toList (by decide)

/-! ## The labeled pass and the fallback pass -/

theorem normalizeList_nil : normalizeList [] = [] := rfl

theorem labeledStep_no_label {l : Str} (h : hasLabel l = false) (v k : List Str) :
    labeledStep ⟨v, k, .none⟩ l = ⟨v, k, .none⟩ := by
  simp only [hasLabel, Bool.or_eq_false_iff] at h
  obtain ⟨h1, h2⟩ := h
  unfold labeledStep
  simp only [h1, h2]
  simp

theorem foldl_labeledStep_no_label {ls : List Str} (h : ∀ l ∈ ls, hasLabel l = false)
    (v k : List Str) : ls.foldl labeledStep ⟨v, k, .none⟩ = ⟨v, k, .none⟩ := by
  induction ls with
  | nil => rfl
  | cons a t ih =>
    rw [List.foldl_cons, labeledStep_no_label (h a (by simp))]
    exact ih (fun l hl => h l (by simp [hl]))

theorem labeledPass_no_label {ls : List Str} (h : ∀ l ∈ ls, hasLabel l = false) :
    labeledPass ls = ([], []) := by
  unfold labeledPass
  rw [foldl_labeledStep_no_label h]
  rfl

theorem finish_of_nil_left (k : List Str) : finish [] k = .error .notLocated := by
  simp [finish]

theorem finish_of_nil_right (v : List Str) : finish v [] = .error .notLocated := by
  simp [finish]

theorem finish_of_ne_nil {v k : List Str} (hv : v ≠ []) (hk : k ≠ []) :
    finish v k = .ok (v, k) := by
  simp [finish, hv, hk]

theorem fallbackPass_of_labeled_entry (content : Str) {v k : List Str} (h : v ≠ [] ∨ k ≠ []) :
    fallbackPass content v k = finish v k := by
  unfold fallbackPass
  have : ¬ (2 ≤ (splitOnBlankBlocks content).length ∧ v.length = 0 ∧ k.length = 0) := by
    rintro ⟨-, hv, hk⟩
    rw [List.length_eq_zero] at hv hk
    rcases h with h | h
    · exact h hv
    · exact h hk
  simp only [this, if_false]

/-- C10, as stated, fails: this file has a line `vendors:`, the labeled pass
finds no entry, and the parser returns the entries of the first two blocks. -/
theorem label_found_counterexample :
    (∃ l ∈ rawLinesOf "Zoom, Slack\n\nhacked\n\nvendors:".toList, hasLabel l = true)
    ∧ labeledPass (rawLinesOf "Zoom, Slack\n\nhacked\n\nvendors:".toList) = ([], [])
    ∧ splitOnBlankBlocks "Zoom, Slack\n\nhacked\n\nvendors:".toList =
        ["Zoom, Slack".toList, "hacked".toList, "vendors:".toList]
    ∧ parseVendorsKeywords "Zoom, Slack\n\nhacked\n\nvendors:".toList =
        .ok (["Zoom".toList, "Slack".toList], ["hacked".toList]) := by
  decide

theorem label_of_labeled_entry {content : Str}
    (h : (labeledPass (rawLinesOf content)).1 ≠ [] ∨ (labeledPass (rawLinesOf content)).2 ≠ []) :
    ∃ l ∈ rawLinesOf content, hasLabel l = true := by
  by_contra hcon
  push_neg at hcon
  have := labeledPass_no_label (fun l hl => by simpa using hcon l hl)
  rw [this] at h
  simp at h

theorem parse_of_labeled_entry {content : Str}
    (h : (labeledPass (rawLinesOf content)).1 ≠ [] ∨ (labeledPass (rawLinesOf content)).2 ≠ []) :
    parseVendorsKeywords content =
      (if (linesOf content).any tooLong then .error .scanner
       else if (labeledPass (rawLinesOf content)).1 ≠ [] ∧
          (labeledPass (rawLinesOf content)).2 ≠ [] then
        .ok (labeledPass (rawLinesOf content))
       else .error .notLocated) := by
  have hraw : rawLinesOf content ≠ [] := by
    obtain ⟨l, hl, -⟩ := label_of_labeled_entry h
    exact List.ne_nil_of_mem hl
  rw [parse_eq]
  by_cases h1 : (linesOf content).any tooLong = true
  · simp [h1]
  · simp only [h1, hraw, if_false, Bool.false_eq_true, List.length_pos]
    by_cases h2 : (labeledPass (rawLinesOf content)).1 ≠ [] ∧
        (labeledPass (rawLinesOf content)).2 ≠ []
    · rw [if_pos h2, if_pos h2]
    · rw [if_neg h2, if_neg h2]
      rw [fallbackPass_of_labeled_entry content h]
      rw [not_and_or] at h2
      rcases h2 with h2 | h2
      · rw [not_not] at h2
        rw [h2]; exact finish_of_nil_left _
      · rw [not_not] at h2
        rw [h2]; exact finish_of_nil_right _

/-- C10, amended. The fallback engages only when the labeled pass found no
entry at all: for every file content on which the labeled pass yields at least
one vendor or keyword (such a content has a label line), the parser returns
the two lists of the labeled pass when both are non-empty and fails otherwise;
it never returns lists taken from the blocks. -/
theorem fallback_only_without_labeled_entry (content : Str)
    (h : (labeledPass (rawLinesOf content)).1 ≠ [] ∨ (labeledPass (rawLinesOf content)).2 ≠ []) :
    (∃ l ∈ rawLinesOf content, hasLabel l = true)
    ∧ parseVendorsKeywords content =
      (if (linesOf content).any tooLong then .error .scanner
       else if (labeledPass (rawLinesOf content)).1 ≠ [] ∧
          (labeledPass (rawLinesOf content)).2 ≠ [] then
        .ok (labeledPass (rawLinesOf content))
       else .error .notLocated) :=
  ⟨label_of_labeled_entry h, parse_of_labeled_entry h⟩

/-- C10, amended, at a file with the label `vendors:` and three blocks: the
labeled pass finds vendors only, and the parser fails. -/
theorem fallback_only_without_labeled_entry_witness :
    (∃ l ∈ rawLinesOf "vendors: Zoom\n\nhacked\n\nmore".toList, hasLabel l = true)
    ∧ parseVendorsKeywords "vendors: Zoom\n\nhacked\n\nmore".toList =
      (if (linesOf "vendors: Zoom\n\nhacked\n\nmore".toList).any tooLong then .error .scanner
       else if (labeledPass (rawLinesOf "vendors: Zoom\n\nhacked\n\nmore".toList)).1 ≠ [] ∧
          (labeledPass (rawLinesOf "vendors: Zoom\n\nhacked\n\nmore".toList)).2 ≠ [] then
        .ok (labeledPass (rawLinesOf "vendors: Zoom\n\nhacked\n\nmore".toList))
       else .error .notLocated) :=
  fallback_only_without_labeled_entry "vendors: Zoom\n\nhacked\n\nmore".toList
    (Or.inl (by decide))

/-! ## Label lines -/

theorem dropWhile_append_of_head {p : Char → Bool} (U : Str) {c : Char} (V : Str)
    (hc : p c = false) : (U ++ c :: V).dropWhile p = U.dropWhile p ++ c :: V := by
  induction U with
  | nil => simp [List.dropWhile_cons, hc]
  | cons x t ih =>
    by_cases hx : p x = true
    · simp [List.dropWhile_cons, hx, ih]
    · simp [List.dropWhile_cons, hx]

theorem rdropWhile_append_of_last (A : Str) {c : Char} (X : Str) (hc : isSpace c = false) :
    (A ++ c :: X).rdropWhile isSpace = A ++ c :: X.rdropWhile isSpace := by
  unfold List.rdropWhile
  have : (A ++ c :: X).reverse = X.reverse ++ c :: A.reverse := by simp
  rw [this, dropWhile_append_of_head _ _ hc]
  simp

theorem trimSpace_label {a c : Char} (A X : Str) (ha : isSpace a = false)
    (hc : isSpace c = false) :
    trimSpace (a :: (A ++ c :: X)) = a :: (A ++ c :: X.rdropWhile isSpace) := by
  unfold trimSpace
  have h1 : (a :: (A ++ c :: X)).dropWhile isSpace = a :: (A ++ c :: X) := by
    simp [List.dropWhile_cons, ha]
  rw [h1]
  exact rdropWhile_append_of_last (a :: A) X hc

theorem rdropWhile_decomp (X : Str) :
    ∃ t, X = X.rdropWhile isSpace ++ t ∧ ∀ c ∈ t, isSpace c = true := by
  refine ⟨(X.reverse.takeWhile isSpace).reverse, ?_, ?_⟩
  · unfold List.rdropWhile
    rw [← List.reverse_append, List.takeWhile_append_dropWhile, List.reverse_reverse]
  · intro c hc
    exact List.mem_takeWhile_imp (List.mem_reverse.1 hc)

theorem trimSpace_rdropWhile (X : Str) : trimSpace (X.rdropWhile isSpace) = trimSpace X := by
  obtain ⟨t, h1, h2⟩ := rdropWhile_decomp X
  conv_rhs => rw [h1]
  rw [trimSpace_append_right _ h2]

theorem afterColon_label (pre Y : Str) (hpre : ∀ c ∈ pre, c ≠ ':') :
    afterColon (pre ++ ':' :: Y) = trimSpace Y := by
  have hidx : List.indexOf ':' (pre ++ ':' :: Y) = pre.length := by
    induction pre with
    | nil => simp
    | cons x t ih =>
      have hx : x ≠ ':' := hpre x (by simp)
      rw [List.cons_append, List.indexOf_cons_ne _ hx, ih (fun c hc => hpre c (by simp [hc]))]
      simp
  unfold afterColon
  simp only [hidx, List.length_append, List.length_cons]
  have hlt : pre.length < pre.length + (Y.length + 1) := by omega
  simp only [hlt, if_true]
  have : List.drop (pre.length + 1) (pre ++ ':' :: Y) = Y := by
    rw [List.drop_append_eq_append_drop]
    simp
  rw [this]

theorem vendors_line (L : Str) :
    ∃ line, trimSpace ("vendors: ".toList ++ L) = line
      ∧ isContentLine line = true
      ∧ hasPrefix (toLower line) "vendors:".toList = true
      ∧ afterColon line = trimSpace L := by
  have hform : "vendors: ".toList ++ L = 'v' :: ("endors".toList ++ ':' :: (' ' :: L)) := rfl
  have htrim := trimSpace_label "endors".toList (' ' :: L) (a := 'v') (c := ':')
    (by decide) (by decide)
  refine ⟨_, rfl, ?_, ?_, ?_⟩
  · rw [hform, htrim]
    simp [isContentLine, hasPrefix, List.isPrefixOf]
  · rw [hform, htrim]
    simp [hasPrefix, toLower, List.isPrefixOf, toLowerRune]
  · rw [hform, htrim]
    have := afterColon_label "vendors".toList ((' ' :: L).rdropWhile isSpace) (by decide)
    have h2 : 'v' :: ("endors".toList ++ ':' :: (' ' :: L).rdropWhile isSpace) =
        "vendors".toList ++ ':' :: (' ' :: L).rdropWhile isSpace := rfl
    rw [h2, this, trimSpace_rdropWhile]
    exact trimSpace_append_left (a := [' ']) L (by decide)

theorem keywords_line (L : Str) :
    ∃ line, trimSpace ("keywords: ".toList ++ L) = line
      ∧ isContentLine line = true
      ∧ hasPrefix (toLower line) "vendors:".toList = false
      ∧ hasPrefix (toLower line) "keywords:".toList = true
      ∧ afterColon line = trimSpace L := by
  have hform : "keywords: ".toList ++ L = 'k' :: ("eywords".toList ++ ':' :: (' ' :: L)) := rfl
  have htrim := trimSpace_label "eywords".toList (' ' :: L) (a := 'k') (c := ':')
    (by decide) (by decide)
  refine ⟨_, rfl, ?_, ?_, ?_, ?_⟩
  · rw [hform, htrim]
    simp [isContentLine, hasPrefix, List.isPrefixOf]
  · rw [hform, htrim]
    simp [hasPrefix, toLower, List.isPrefixOf, toLowerRune]
  · rw [hform, htrim]
    simp [hasPrefix, toLower, List.isPrefixOf, toLowerRune]
  · rw [hform, htrim]
    have := afterColon_label "keywords".toList ((' ' :: L).rdropWhile isSpace) (by decide)
    have h2 : 'k' :: ("eywords".toList ++ ':' :: (' ' :: L).rdropWhile isSpace) =
        "keywords".toList ++ ':' :: (' ' :: L).rdropWhile isSpace := rfl
    rw [h2, this, trimSpace_rdropWhile]
    exact trimSpace_append_left (a := [' ']) L (by decide)

/-! ## The parser on the lines of a content -/

theorem linesOf_append_newline {A : Str} (B : Str) (hA : ∀ c ∈ A, c ≠ '\n') :
    linesOf (A ++ '\n' :: B) = A :: linesOf B := by
  unfold linesOf split
  apply List.splitOnP_first
  · intro c hc; simpa using hA c hc
  · simp

theorem byteLen_append (A B : Str) : byteLen (A ++ B) = byteLen A + byteLen B := by
  simp [byteLen]

theorem byteLen_cons (c : Char) (B : Str) : byteLen (c :: B) = utf8Len c + byteLen B := by
  simp [byteLen]

theorem tooLong_eq_false {l : Str} (h : byteLen l < maxScanTokenSize) : tooLong l = false := by
  simp only [tooLong, decide_eq_false_iff_not]
  omega

theorem blockStep_content {l : Str} (h : isContentLine (trimSpace l) = true) (st : BlockState) :
    blockStep st l = ⟨st.blocks, st.cur ++ [trimSpace l]⟩ := by
  simp only [isContentLine, Bool.not_eq_true', Bool.or_eq_false_iff, decide_eq_false_iff_not] at h
  simp [blockStep, h.1, h.2]

theorem blockStep_boundary {l : Str} (h : isContentLine (trimSpace l) = false)
    (st : BlockState) :
    blockStep st l =
      if 0 < st.cur.length then ⟨st.blocks ++ [join st.cur ['\n']], []⟩ else st := by
  simp only [isContentLine, Bool.not_eq_false', Bool.or_eq_true, decide_eq_true_eq] at h
  simp only [blockStep, h, if_true]

theorem splitOnBlankBlocks_eq (content : Str) :
    splitOnBlankBlocks content =
      if 0 < ((linesOf content).foldl blockStep ⟨[], []⟩).cur.length then
        ((linesOf content).foldl blockStep ⟨[], []⟩).blocks ++
          [join ((linesOf content).foldl blockStep ⟨[], []⟩).cur ['\n']]
      else ((linesOf content).foldl blockStep ⟨[], []⟩).blocks := rfl

theorem fallbackPass_of_few_blocks {content : Str} (v k : List Str)
    (h : (splitOnBlankBlocks content).length < 2) : fallbackPass content v k = finish v k := by
  unfold fallbackPass
  have : ¬ (2 ≤ (splitOnBlankBlocks content).length ∧ v.length = 0 ∧ k.length = 0) := by
    rintro ⟨h2, -, -⟩
    omega
  simp only [this, if_false]

theorem fallbackPass_of_blocks {content : Str} {b0 b1 : Str} {rest : List Str}
    (h : splitOnBlankBlocks content = b0 :: b1 :: rest) :
    fallbackPass content [] [] =
      finish (normalizeList (splitCSV b0)) (normalizeList (splitCSV b1)) := by
  unfold fallbackPass
  simp [h]

theorem finish_eq_of_lengths {v k : List Str} (h : 0 < v.length ∧ 0 < k.length) :
    finish v k = .ok (v, k) :=
  finish_of_ne_nil (List.length_pos.1 h.1) (List.length_pos.1 h.2)

theorem parse_of_few_blocks {content : Str} (hlong : (linesOf content).any tooLong = false)
    (hraw : rawLinesOf content ≠ []) (hblocks : (splitOnBlankBlocks content).length < 2) :
    parseVendorsKeywords content =
      finish (labeledPass (rawLinesOf content)).1 (labeledPass (rawLinesOf content)).2 := by
  rw [parse_eq]
  simp only [hlong, hraw, if_false, Bool.false_eq_true]
  split_ifs with h
  · exact (finish_eq_of_lengths h).symm
  · exact fallbackPass_of_few_blocks _ _ hblocks

theorem parse_of_no_label {content : Str} (hlong : (linesOf content).any tooLong = false)
    (hraw : rawLinesOf content ≠ []) (hno : ∀ l ∈ rawLinesOf content, hasLabel l = false)
    {b0 b1 : Str} {rest : List Str} (hblocks : splitOnBlankBlocks content = b0 :: b1 :: rest) :
    parseVendorsKeywords content =
      finish (normalizeList (splitCSV b0)) (normalizeList (splitCSV b1)) := by
  rw [parse_eq]
  simp only [hlong, hraw, if_false, Bool.false_eq_true, labeledPass_no_label hno]
  simp only [List.length_nil, Nat.lt_irrefl, and_self, if_false]
  exact fallbackPass_of_blocks hblocks

theorem parse_inline_labeled (L1 L2 : Str) (h1 : ∀ c ∈ L1, c ≠ '\n') (h2 : ∀ c ∈ L2, c ≠ '\n')
    (hlen1 : byteLen L1 + 9 < maxScanTokenSize) (hlen2 : byteLen L2 + 10 < maxScanTokenSize) :
    parseVendorsKeywords ("vendors: ".toList ++ L1 ++ '\n' :: ("keywords: ".toList ++ L2)) =
      finish (normalizeList (splitCSV (trimSpace L1))) (normalizeList (splitCSV (trimSpace L2))) := by
  have hA : ∀ c ∈ "vendors: ".toList ++ L1, c ≠ '\n' := by
    intro c hc
    rcases List.mem_append.1 hc with h | h
    · have hd : ∀ c ∈ "vendors: ".toList, c ≠ '\n' := by decide
      exact hd c h
    · exact h1 c h
  have hB : ∀ c ∈ "keywords: ".toList ++ L2, c ≠ '\n' := by
    intro c hc
    rcases List.mem_append.1 hc with h | h
    · have hd : ∀ c ∈ "keywords: ".toList, c ≠ '\n' := by decide
      exact hd c h
    · exact h2 c h
  have hlines : linesOf ("vendors: ".toList ++ L1 ++ '\n' :: ("keywords: ".toList ++ L2)) =
      ["vendors: ".toList ++ L1, "keywords: ".toList ++ L2] := by
    rw [linesOf_append_newline _ hA, linesOf_of_no_newline hB]
  have hb1 : byteLen ("vendors: ".toList ++ L1) = byteLen L1 + 9 := by
    rw [byteLen_append]
    have : byteLen "vendors: ".toList = 9 := by decide
    omega
  have hb2 : byteLen ("keywords: ".toList ++ L2) = byteLen L2 + 10 := by
    rw [byteLen_append]
    have : byteLen "keywords: ".toList = 10 := by decide
    omega
  have hlong : (linesOf ("vendors: ".toList ++ L1 ++ '\n' :: ("keywords: ".toList ++ L2))).any
      tooLong = false := by
    rw [hlines]
    simp only [List.any_cons, List.any_nil, Bool.or_false, Bool.or_eq_false_iff]
    exact ⟨tooLong_eq_false (by omega), tooLong_eq_false (by omega)⟩
  obtain ⟨line1, hl1, hc1, hp1, ha1⟩ := vendors_line L1
  obtain ⟨line2, hl2, hc2, hq2, hp2, ha2⟩ := keywords_line L2
  have hraw : rawLinesOf ("vendors: ".toList ++ L1 ++ '\n' :: ("keywords: ".toList ++ L2)) =
      [line1, line2] := by
    unfold rawLinesOf
    rw [hlines]
    simp only [List.map_cons, List.map_nil, hl1, hl2]
    simp [List.filter_cons, hc1, hc2]
  have hlab : labeledPass [line1, line2] =
      (normalizeList (splitCSV (trimSpace L1)), normalizeList (splitCSV (trimSpace L2))) := by
    unfold labeledPass
    simp only [List.foldl_cons, List.foldl_nil, labeledStep, hp1, hq2, hp2, ha1, ha2, if_true,
      Bool.false_eq_true, if_false, List.nil_append]
  have hblocks : (splitOnBlankBlocks
      ("vendors: ".toList ++ L1 ++ '\n' :: ("keywords: ".toList ++ L2))).length < 2 := by
    rw [splitOnBlankBlocks_eq, hlines]
    simp only [List.foldl_cons, List.foldl_nil]
    rw [blockStep_content (by rw [hl2]; exact hc2), blockStep_content (by rw [hl1]; exact hc1)]
    simp
  rw [parse_of_few_blocks hlong (by rw [hraw]; simp) hblocks, hraw, hlab]

/-! ## Lines of tokens -/

theorem isToken_trimmed {t : Str} (h : IsToken t) : Trimmed t :=
  trimmed_of_no_space (fun c hc => (h.2 c hc).1)

theorem isToken_not_separator {t : Str} (h : IsToken t) : ∀ c ∈ t, isSeparator c = false := by
  intro c hc
  have := h.2 c hc
  simp [isSeparator, this.2.1, this.2.2]

theorem splitCSV_token {t : Str} (h : IsToken t) : splitCSV t = [t] := by
  rw [splitCSV_eq_spec, splitCSVSpec]
  have hany : t.any isSeparator = false :=
    List.any_eq_false.2 (fun c hc => by simp [isToken_not_separator h c hc])
  simp only [hany, Bool.false_eq_true, if_false]
  rw [List.splitOnP_eq_single isSpace t (fun c hc => by simp [(h.2 c hc).1])]
  simp [h.1]

theorem join_cons_cons (sep a b : Str) (r : List Str) :
    join (a :: b :: r) sep = a ++ sep ++ join (b :: r) sep := by
  simp [join, List.intercalate]

theorem join_singleton (sep a : Str) : join [a] sep = a := by
  simp [join, List.intercalate]

theorem splitOnP_join_comma (t : Str) (rest : List Str) (h : ∀ u ∈ t :: rest, IsToken u) :
    (join (t :: rest) ", ".toList).splitOnP isSeparator = t :: rest.map (fun u => ' ' :: u) := by
  induction rest generalizing t with
  | nil =>
    rw [join_singleton]
    exact List.splitOnP_eq_single isSeparator t
      (fun c hc => by simp [isToken_not_separator (h t (by simp)) c hc])
  | cons u r ih =>
    rw [join_cons_cons]
    have hform : t ++ ", ".toList ++ join (u :: r) ", ".toList =
        t ++ ',' :: (' ' :: join (u :: r) ", ".toList) := by simp
    rw [hform, List.splitOnP_first isSeparator t
      (fun c hc => by simp [isToken_not_separator (h t (by simp)) c hc]) ',' (by decide)]
    have hsp : isSeparator ' ' = false := by decide
    obtain ⟨hd, tl, e1, e2⟩ := splitOnP_cons_neg (join (u :: r) ", ".toList) hsp
    rw [e2]
    rw [ih u (fun x hx => h x (by simp [List.mem_cons.1 hx]))] at e1
    injection e1 with ea eb
    rw [← ea, ← eb]
    rfl

theorem trimSpace_space_token {u : Str} (h : IsToken u) : trimSpace (' ' :: u) = u := by
  have := trimSpace_append_left (a := [' ']) u (by decide)
  simp only [List.singleton_append] at this
  rw [this, trimSpace_of_trimmed (isToken_trimmed h)]

theorem splitCSV_join_comma (ts : List Str) (h : ∀ u ∈ ts, IsToken u) :
    splitCSV (join ts ", ".toList) = ts := by
  cases ts with
  | nil => decide
  | cons t rest =>
    cases rest with
    | nil => rw [join_singleton]; exact splitCSV_token (h t (by simp))
    | cons u r =>
      rw [splitCSV_eq_spec, splitCSVSpec]
      have hany : (join (t :: u :: r) ", ".toList).any isSeparator = true := by
        rw [join_cons_cons]
        simp [isSeparator]
      simp only [hany, if_true]
      rw [splitOnP_join_comma t (u :: r) h]
      simp only [List.map_cons, List.map_map]
      rw [trimSpace_of_trimmed (isToken_trimmed (h t (by simp)))]
      have hmap : List.map (trimSpace ∘ fun u => ' ' :: u) (u :: r) = u :: r := by
        conv_rhs => rw [← List.map_id (u :: r)]
        apply List.map_congr_left
        intro x hx
        exact trimSpace_space_token (h x (by simp [List.mem_cons.1 hx]))
      have hmap2 : trimSpace (' ' :: u) :: List.map (trimSpace ∘ fun u => ' ' :: u) r = u :: r := by
        simpa using hmap
      rw [hmap2]
      rw [List.filter_eq_self]
      intro x hx
      simp [(h x hx).1]

theorem normalizeList_tokens {ts : List Str} (h : ∀ u ∈ ts, u ≠ [] ∧ Trimmed u) :
    normalizeList ts = removeLaterDuplicates ts := by
  rw [normalizeList_eq_spec, normalizeListSpec]
  have hmap : ts.map trimSpace = ts := by
    conv_rhs => rw [← List.map_id ts]
    apply List.map_congr_left
    intro x hx
    exact trimSpace_of_trimmed (h x hx).2
  rw [hmap, List.filter_eq_self.2]
  intro x hx
  simp [(h x hx).1]

theorem removeLaterDuplicates_ne_nil {ts : List Str} (h : ts ≠ []) :
    removeLaterDuplicates ts ≠ [] := by
  cases ts with
  | nil => exact absurd rfl h
  | cons a t => simp [removeLaterDuplicates]

theorem join_tokens_chars {ts : List Str} (h : ∀ u ∈ ts, IsToken u) :
    ∀ c ∈ join ts ", ".toList, c ≠ '\n' ∧ (c = ' ' ∨ c = ',' ∨ isSpace c = false) := by
  induction ts with
  | nil => intro c hc; simp [join, List.intercalate] at hc
  | cons t rest ih =>
    cases rest with
    | nil =>
      intro c hc
      rw [join_singleton] at hc
      have := (h t (by simp)).2 c hc
      refine ⟨?_, Or.inr (Or.inr this.1)⟩
      intro hn; rw [hn] at this; simp at this; revert this; decide
    | cons u r =>
      intro c hc
      rw [join_cons_cons] at hc
      rcases List.mem_append.1 hc with h1 | h1
      · rcases List.mem_append.1 h1 with h2 | h2
        · have := (h t (by simp)).2 c h2
          refine ⟨?_, Or.inr (Or.inr this.1)⟩
          intro hn; rw [hn] at this; simp at this; revert this; decide
        · have hd : ∀ c ∈ ", ".toList, c ≠ '\n' ∧ (c = ' ' ∨ c = ',' ∨ isSpace c = false) := by
            decide
          exact hd c h2
      · exact ih (fun x hx => h x (by simp [List.mem_cons.1 hx])) c h1

theorem trimmed_join_tokens {ts : List Str} (h : ∀ u ∈ ts, IsToken u) :
    Trimmed (join ts ", ".toList) := by
  cases ts with
  | nil => exact trimmed_nil
  | cons t rest =>
    constructor
    · intro c hc
      have ht := h t (by simp)
      have hhead : (join (t :: rest) ", ".toList).head? = t.head? := by
        cases rest with
        | nil => rw [join_singleton]
        | cons u r =>
          rw [join_cons_cons, List.append_assoc, List.head?_append_of_ne_nil _ ht.1]
      rw [hhead] at hc
      exact (ht.2 c (List.mem_of_mem_head? hc)).1
    · intro c hc
      obtain ⟨pre, hpre⟩ := join_suffix ", ".toList (t :: rest) (by simp)
      have hl := h _ (List.getLast_mem (List.cons_ne_nil t rest))
      rw [hpre, List.getLast?_append, List.getLast?_eq_getLast _ hl.1] at hc
      simp only [Option.or, Option.some.injEq] at hc
      rw [← hc]
      exact (hl.2 _ (List.getLast_mem hl.1)).1

theorem parse_two_blocks (L1 L2 : Str) (h1 : ∀ c ∈ L1, c ≠ '\n') (h2 : ∀ c ∈ L2, c ≠ '\n')
    (hc1 : isContentLine (trimSpace L1) = true) (hc2 : isContentLine (trimSpace L2) = true)
    (hn1 : hasLabel (trimSpace L1) = false) (hn2 : hasLabel (trimSpace L2) = false)
    (hlen1 : byteLen L1 < maxScanTokenSize) (hlen2 : byteLen L2 < maxScanTokenSize) :
    parseVendorsKeywords (L1 ++ '\n' :: '\n' :: L2) =
      finish (normalizeList (splitCSV (trimSpace L1))) (normalizeList (splitCSV (trimSpace L2))) := by
  have hlines : linesOf (L1 ++ '\n' :: '\n' :: L2) = [L1, [], L2] := by
    rw [linesOf_append_newline _ h1]
    have : linesOf ('\n' :: L2) = [] :: linesOf L2 :=
      linesOf_append_newline (A := []) L2 (by simp)
    rw [this, linesOf_of_no_newline h2]
  have hlong : (linesOf (L1 ++ '\n' :: '\n' :: L2)).any tooLong = false := by
    rw [hlines]
    simp only [List.any_cons, List.any_nil, Bool.or_false, Bool.or_eq_false_iff]
    exact ⟨tooLong_eq_false hlen1, tooLong_nil, tooLong_eq_false hlen2⟩
  have hraw : rawLinesOf (L1 ++ '\n' :: '\n' :: L2) = [trimSpace L1, trimSpace L2] := by
    unfold rawLinesOf
    rw [hlines]
    simp [List.filter_cons, hc1, hc2, trimSpace_nil, isContentLine_nil]
  have hblocks : splitOnBlankBlocks (L1 ++ '\n' :: '\n' :: L2) =
      trimSpace L1 :: trimSpace L2 :: [] := by
    rw [splitOnBlankBlocks_eq, hlines]
    simp only [List.foldl_cons, List.foldl_nil]
    rw [blockStep_content hc2, blockStep_boundary (by rw [trimSpace_nil]; exact isContentLine_nil),
      blockStep_content hc1]
    simp [join_singleton]
  rw [parse_of_no_label hlong (by rw [hraw]; simp) _ hblocks]
  intro l hl
  rw [hraw] at hl
  simp only [List.mem_cons, List.mem_singleton, List.not_mem_nil, or_false] at hl
  rcases hl with rfl | rfl
  · exact hn1
  · exact hn2

/-! ## A token too long for the scanner -/

theorem longToken_eq : longToken = 'a' :: List.replicate 65529 'a' := by
  show List.replicate (65529 + 1) 'a' = _
  rw [List.replicate_succ]

theorem mem_longToken {c : Char} (h : c ∈ longToken) : c = 'a' :=
  List.eq_of_mem_replicate h

theorem isToken_longToken : IsToken longToken := by
  constructor
  · rw [longToken_eq]; exact List.cons_ne_nil _ _
  · intro c hc
    rw [mem_longToken hc]
    decide

theorem byteLen_longToken : byteLen longToken = 65530 :=
  byteLen_replicate 65530 'a' (by decide)

theorem isToken_x : IsToken "x".toList := by
  constructor
  · decide
  · decide

theorem parse_long_first_line (A B : Str) (hA : ∀ c ∈ A, c ≠ '\n')
    (hlen : maxScanTokenSize ≤ byteLen A) :
    parseVendorsKeywords (A ++ '\n' :: B) = .error .scanner := by
  apply parse_long_line
  exact ⟨A, by rw [linesOf_append_newline _ hA]; simp, hlen⟩

theorem parse_vendors_longToken (B : Str) :
    parseVendorsKeywords ("vendors: ".toList ++ longToken ++ '\n' :: B) = .error .scanner := by
  apply parse_long_first_line
  · intro c hc
    rcases List.mem_append.1 hc with h | h
    · have hd : ∀ c ∈ "vendors: ".toList, c ≠ '\n' := by decide
      exact hd c h
    · rw [mem_longToken h]; decide
  · rw [byteLen_append, byteLen_longToken]
    decide

/-! ## The inline-labeled form -/

/-- C6, as stated, fails: with a vendor of 65530 bytes the line `vendors: ...`
does not fit the scanner's buffer and the parser fails. -/
theorem inline_labeled_counterexample :
    [longToken] ≠ [] ∧ ["x".toList] ≠ []
    ∧ (∀ t ∈ [longToken], IsToken t) ∧ (∀ t ∈ ["x".toList], IsToken t)
    ∧ parseVendorsKeywords ("vendors: ".toList ++ join [longToken] ", ".toList ++
        '\n' :: ("keywords: ".toList ++ join ["x".toList] ", ".toList)) = .error .scanner := by
  refine ⟨by simp, by simp, ?_, ?_, ?_⟩
  · intro t ht
    rw [List.mem_singleton.1 ht]
    exact isToken_longToken
  · intro t ht
    rw [List.mem_singleton.1 ht]
    exact isToken_x
  · rw [join_singleton]
    exact parse_vendors_longToken _

/-- C6, amended. For non-empty lists `vs` and `ks` of tokens (non-empty,
without white space, comma or semicolon) whose two lines `vendors: ` +
(`vs` joined by `, `) and `keywords: ` + (`ks` joined by `, `) are each shorter
than the scanner's 65536 bytes, the parser succeeds on the two-line content and
returns `vs` and `ks` with the later duplicates removed, in their order. -/
theorem inline_labeled_form (vs ks : List Str) (hvs : vs ≠ []) (hks : ks ≠ [])
    (htv : ∀ t ∈ vs, IsToken t) (htk : ∀ t ∈ ks, IsToken t)
    (hlen1 : byteLen ("vendors: ".toList ++ join vs ", ".toList) < maxScanTokenSize)
    (hlen2 : byteLen ("keywords: ".toList ++ join ks ", ".toList) < maxScanTokenSize) :
    parseVendorsKeywords ("vendors: ".toList ++ join vs ", ".toList ++
        '\n' :: ("keywords: ".toList ++ join ks ", ".toList)) =
      .ok (removeLaterDuplicates vs, removeLaterDuplicates ks) := by
  have hb1 : byteLen "vendors: ".toList = 9 := by decide
  have hb2 : byteLen "keywords: ".toList = 10 := by decide
  rw [byteLen_append, hb1] at hlen1
  rw [byteLen_append, hb2] at hlen2
  rw [parse_inline_labeled _ _ (fun c hc => (join_tokens_chars htv c hc).1)
    (fun c hc => (join_tokens_chars htk c hc).1) (by omega) (by omega)]
  rw [trimSpace_of_trimmed (trimmed_join_tokens htv), trimSpace_of_trimmed (trimmed_join_tokens htk),
    splitCSV_join_comma vs htv, splitCSV_join_comma ks htk,
    normalizeList_tokens (fun u hu => ⟨(htv u hu).1, isToken_trimmed (htv u hu)⟩),
    normalizeList_tokens (fun u hu => ⟨(htk u hu).1, isToken_trimmed (htk u hu)⟩)]
  exact finish_of_ne_nil (removeLaterDuplicates_ne_nil hvs) (removeLaterDuplicates_ne_nil hks)

/-- C6, amended, at the vendors `A`, `B`, `A` and the keywords `X`, `Y`. -/
theorem inline_labeled_form_witness :
    parseVendorsKeywords ("vendors: ".toList ++
        join ["A".toList, "B".toList, "A".toList] ", ".toList ++
        '\n' :: ("keywords: ".toList ++ join ["X".toList, "Y".toList] ", ".toList)) =
      .ok (removeLaterDuplicates ["A".toList, "B".toList, "A".toList],
        removeLaterDuplicates ["X".toList, "Y".toList]) :=
  inline_labeled_form ["A".toList, "B".toList, "A".toList] ["X".toList, "Y".toList]
    (by decide) (by decide)
    (by intro t ht; simp only [List.mem_cons, List.mem_singleton, List.not_mem_nil, or_false] at ht
        rcases ht with rfl | rfl | rfl <;> exact ⟨by decide, by decide⟩)
    (by intro t ht; simp only [List.mem_cons, List.mem_singleton, List.not_mem_nil, or_false] at ht
        rcases ht with rfl | rfl <;> exact ⟨by decide, by decide⟩)
    (by decide) (by decide)

/-! ## The unlabeled two-block form -/

theorem isContentLine_iff (l : Str) :
    isContentLine l = true ↔ l ≠ [] ∧ hasPrefix l ['#'] = false := by
  simp [isContentLine]

theorem hasLabel_longToken : hasLabel longToken = false := by
  rw [longToken_eq]
  decide

theorem normalizeList_splitCSV_token {t : Str} (h : IsToken t) :
    normalizeList (splitCSV (trimSpace t)) = [t] := by
  rw [trimSpace_of_trimmed (isToken_trimmed h), splitCSV_token h,
    normalizeList_tokens (fun u hu => by
      rw [List.mem_singleton.1 hu]; exact ⟨h.1, isToken_trimmed h⟩)]
  simp [removeLaterDuplicates]

theorem isContentLine_longToken : isContentLine (trimSpace longToken) = true := by
  rw [trimSpace_of_trimmed (isToken_trimmed isToken_longToken), longToken_eq]
  decide

/-- C8, as stated, fails: with a first line of 65530 bytes the unlabeled file
parses, and the inline-labeled file, whose first line is 9 bytes longer, does
not fit the scanner's buffer. -/
theorem two_block_counterexample :
    (∀ c ∈ longToken, c ≠ '\n') ∧ (∀ c ∈ "x".toList, c ≠ '\n')
    ∧ isContentLine (trimSpace longToken) = true ∧ isContentLine (trimSpace "x".toList) = true
    ∧ hasLabel (trimSpace longToken) = false ∧ hasLabel (trimSpace "x".toList) = false
    ∧ parseVendorsKeywords (longToken ++ '\n' :: '\n' :: "x".toList) =
        .ok ([longToken], ["x".toList])
    ∧ parseVendorsKeywords ("vendors: ".toList ++ longToken ++
        '\n' :: ("keywords: ".toList ++ "x".toList)) = .error .scanner := by
  have hnl : ∀ c ∈ longToken, c ≠ '\n' := by
    intro c hc; rw [mem_longToken hc]; decide
  have hlab : hasLabel (trimSpace longToken) = false := by
    rw [trimSpace_of_trimmed (isToken_trimmed isToken_longToken)]
    exact hasLabel_longToken
  refine ⟨hnl, by decide, isContentLine_longToken, by decide, hlab, by decide, ?_,
    parse_vendors_longToken _⟩
  rw [parse_two_blocks longToken "x".toList hnl (by decide) isContentLine_longToken (by decide)
    hlab (by decide) (by rw [byteLen_longToken]; decide) (by decide),
    normalizeList_splitCSV_token isToken_longToken, normalizeList_splitCSV_token isToken_x]
  rfl

/-- C8, amended. For two single lines `L1` and `L2` that after trimming are
non-blank, do not start with `#` and do not start, in any letter case, with
`vendors:` or `keywords:`, and for which the labeled lines `vendors: L1` and
`keywords: L2` are shorter than the scanner's 65536 bytes, parsing `L1`, a
blank line, `L2` gives the same result, the same lists or the same failure, as
parsing `vendors: L1` / `keywords: L2`. -/
theorem two_block_agrees_with_inline (L1 L2 : Str)
    (h1 : ∀ c ∈ L1, c ≠ '\n') (h2 : ∀ c ∈ L2, c ≠ '\n')
    (hb1 : trimSpace L1 ≠ []) (hb2 : trimSpace L2 ≠ [])
    (hc1 : hasPrefix (trimSpace L1) ['#'] = false) (hc2 : hasPrefix (trimSpace L2) ['#'] = false)
    (hn1 : hasLabel (trimSpace L1) = false) (hn2 : hasLabel (trimSpace L2) = false)
    (hlen1 : byteLen ("vendors: ".toList ++ L1) < maxScanTokenSize)
    (hlen2 : byteLen ("keywords: ".toList ++ L2) < maxScanTokenSize) :
    parseVendorsKeywords (L1 ++ '\n' :: '\n' :: L2) =
      parseVendorsKeywords ("vendors: ".toList ++ L1 ++ '\n' :: ("keywords: ".toList ++ L2)) := by
  have hb1' : byteLen "vendors: ".toList = 9 := by decide
  have hb2' : byteLen "keywords: ".toList = 10 := by decide
  rw [byteLen_append, hb1'] at hlen1
  rw [byteLen_append, hb2'] at hlen2
  rw [parse_inline_labeled L1 L2 h1 h2 (by omega) (by omega),
    parse_two_blocks L1 L2 h1 h2 ((isContentLine_iff _).2 ⟨hb1, hc1⟩)
      ((isContentLine_iff _).2 ⟨hb2, hc2⟩) hn1 hn2 (by omega) (by omega)]

/-- C8, amended, at the lines `Zoom, Slack` and `hacked, breached`. -/
theorem two_block_agrees_with_inline_witness :
    parseVendorsKeywords ("Zoom, Slack".toList ++ '\n' :: '\n' :: "hacked, breached".toList) =
      parseVendorsKeywords ("vendors: ".toList ++ "Zoom, Slack".toList ++
        '\n' :: ("keywords: ".toList ++ "hacked, breached".toList)) :=
  two_block_agrees_with_inline "Zoom, Slack".toList "hacked, breached".toList
    (by decide) (by decide) (by decide) (by decide) (by decide) (by decide) (by decide)
    (by decide) (by decide) (by decide)

/-! ## Comment lines -/

theorem linesOf_ne_nil (content : Str) : linesOf content ≠ [] :=
  List.splitOnP_ne_nil _ _

theorem linesOf_newline_free (content : Str) : ∀ l ∈ linesOf content, ∀ c ∈ l, c ≠ '\n' := by
  intro l hl c hc
  have := not_of_mem_splitOnP content l hl c hc
  simpa using this

theorem linesOf_join {ls : List Str} (hne : ls ≠ []) (h : ∀ l ∈ ls, ∀ c ∈ l, c ≠ '\n') :
    linesOf (join ls ['\n']) = ls := by
  induction ls with
  | nil => exact absurd rfl hne
  | cons a t ih =>
    cases t with
    | nil => rw [join_singleton]; exact linesOf_of_no_newline (h a (by simp))
    | cons b r =>
      rw [join_cons_cons]
      have hform : a ++ ['\n'] ++ join (b :: r) ['\n'] = a ++ '\n' :: join (b :: r) ['\n'] := by
        simp
      rw [hform, linesOf_append_newline _ (h a (by simp)),
        ih (by simp) (fun l hl => h l (by simp [List.mem_cons.1 hl]))]

theorem linesOf_insertLine (content : Str) (i : Nat) {c : Str} (hc : ∀ x ∈ c, x ≠ '\n') :
    linesOf (insertLine content i c) =
      (linesOf content).take i ++ c :: (linesOf content).drop i := by
  unfold insertLine
  apply linesOf_join
  · simp
  · intro l hl
    rcases List.mem_append.1 hl with h | h
    · exact linesOf_newline_free content l (List.mem_of_mem_take h)
    · rcases List.mem_cons.1 h with h | h
      · rw [h]; exact hc
      · exact linesOf_newline_free content l (List.mem_of_mem_drop h)

theorem parse_congr {c1 c2 : Str}
    (hlong : (linesOf c1).any tooLong = (linesOf c2).any tooLong)
    (hraw : rawLinesOf c1 = rawLinesOf c2)
    (hblocks : labeledPass (rawLinesOf c2) = ([], []) →
      splitOnBlankBlocks c1 = splitOnBlankBlocks c2) :
    parseVendorsKeywords c1 = parseVendorsKeywords c2 := by
  rw [parse_eq, parse_eq, hlong, hraw]
  by_cases hl : labeledPass (rawLinesOf c2) = ([], [])
  · have hb := hblocks hl
    simp only [fallbackPass, hb]
  · have hentry : (labeledPass (rawLinesOf c2)).1 ≠ [] ∨ (labeledPass (rawLinesOf c2)).2 ≠ [] := by
      by_contra hcon
      push_neg at hcon
      exact hl (Prod.ext hcon.1 hcon.2)
    rw [fallbackPass_of_labeled_entry c1 hentry, fallbackPass_of_labeled_entry c2 hentry]

theorem isContentLine_comment {c : Str} (hc : hasPrefix (trimSpace c) ['#'] = true) :
    isContentLine (trimSpace c) = false := by
  simp [isContentLine, hc]

theorem foldl_blockStep_cur_nil (pre : List Str) (st : BlockState)
    (hst : pre = [] → st.cur = [])
    (h : ∀ l, pre.getLast? = some l → isContentLine (trimSpace l) = false) :
    (pre.foldl blockStep st).cur = [] := by
  rcases List.eq_nil_or_concat pre with h0 | ⟨p, l, rfl⟩
  · subst h0; exact hst rfl
  · rw [List.concat_eq_append] at h ⊢
    rw [List.foldl_concat, blockStep_boundary (h l (by simp))]
    split_ifs with h1
    · rfl
    · simpa using h1

/-- The end of `splitOnBlankBlocks`: the current block, when it has lines, is appended. -/
theorem blocks_flush_boundary {l : Str} (h : isContentLine (trimSpace l) = false)
    (st : BlockState) :
    (if 0 < (blockStep st l).cur.length then
        (blockStep st l).blocks ++ [join (blockStep st l).cur ['\n']]
      else (blockStep st l).blocks) =
    (if 0 < st.cur.length then st.blocks ++ [join st.cur ['\n']] else st.blocks) := by
  rw [blockStep_boundary h]
  by_cases hcur : 0 < st.cur.length <;> simp [hcur]

theorem blockStep_boundary_twice {c b : Str} (hc : isContentLine (trimSpace c) = false)
    (hb : isContentLine (trimSpace b) = false) (st : BlockState) :
    blockStep (blockStep st c) b = blockStep st b := by
  have e1 := blockStep_boundary hc st
  have e2 := blockStep_boundary hb st
  by_cases hcur : 0 < st.cur.length
  · rw [if_pos hcur] at e1 e2
    rw [e1, e2, blockStep_boundary hb]
    simp
  · rw [if_neg hcur] at e1 e2
    rw [e1, e2]

theorem blocks_insert_boundary (pre post : List Str) {c : Str}
    (hc : isContentLine (trimSpace c) = false)
    (h : (∀ l, pre.getLast? = some l → isContentLine (trimSpace l) = false)
      ∨ (∀ l, post.head? = some l → isContentLine (trimSpace l) = false)) :
    (let st := (pre ++ c :: post).foldl blockStep ⟨[], []⟩
     if 0 < st.cur.length then st.blocks ++ [join st.cur ['\n']] else st.blocks) =
    (let st := (pre ++ post).foldl blockStep ⟨[], []⟩
     if 0 < st.cur.length then st.blocks ++ [join st.cur ['\n']] else st.blocks) := by
  simp only [List.foldl_append, List.foldl_cons]
  rcases h with h | h
  · have hcur := foldl_blockStep_cur_nil pre ⟨[], []⟩ (fun _ => rfl) h
    have : blockStep (pre.foldl blockStep ⟨[], []⟩) c = pre.foldl blockStep ⟨[], []⟩ := by
      rw [blockStep_boundary hc, hcur]
      simp
    rw [this]
  · cases post with
    | nil =>
      simp only [List.foldl_nil]
      exact blocks_flush_boundary hc _
    | cons b r =>
      simp only [List.foldl_cons]
      rw [blockStep_boundary_twice hc (h b (by simp))]

theorem splitOnBlankBlocks_insertLine (content : Str) (i : Nat) {c : Str}
    (hnl : ∀ x ∈ c, x ≠ '\n') (hc : hasPrefix (trimSpace c) ['#'] = true)
    (h : (∀ l, ((linesOf content).take i).getLast? = some l → isContentLine (trimSpace l) = false)
      ∨ (∀ l, ((linesOf content).drop i).head? = some l → isContentLine (trimSpace l) = false)) :
    splitOnBlankBlocks (insertLine content i c) = splitOnBlankBlocks content := by
  rw [splitOnBlankBlocks_eq, splitOnBlankBlocks_eq, linesOf_insertLine content i hnl]
  have := blocks_insert_boundary _ _ (isContentLine_comment hc) h
  simp only [List.take_append_drop] at this
  exact this

theorem rawLinesOf_insertLine (content : Str) (i : Nat) {c : Str}
    (hnl : ∀ x ∈ c, x ≠ '\n') (hc : hasPrefix (trimSpace c) ['#'] = true) :
    rawLinesOf (insertLine content i c) = rawLinesOf content := by
  unfold rawLinesOf
  rw [linesOf_insertLine content i hnl]
  conv_rhs => rw [← List.take_append_drop i (linesOf content)]
  simp only [List.map_append, List.map_cons, List.filter_append, List.filter_cons,
    isContentLine_comment hc, Bool.false_eq_true, if_false]

theorem tooLong_insertLine (content : Str) (i : Nat) {c : Str}
    (hnl : ∀ x ∈ c, x ≠ '\n') (hlen : byteLen c < maxScanTokenSize) :
    (linesOf (insertLine content i c)).any tooLong = (linesOf content).any tooLong := by
  rw [linesOf_insertLine content i hnl]
  conv_rhs => rw [← List.take_append_drop i (linesOf content)]
  simp only [List.any_append, List.any_cons, tooLong_eq_false hlen, Bool.false_or]

/-- C9. The code breaks the claim at the content `Zoom` / `#c` / `Slack` /
blank / `hacked`, which is `Zoom` / `Slack` / blank / `hacked` with the comment
`#c` inserted as its second line. The first pass ignores the comment, as the
doc comment of `parseVendorsKeywords` says of every line starting with `#`:
the raw lines are the same. The fallback pass does not: `splitOnBlankBlocks`
ends the vendor block at the comment, and the parser returns the vendors
`Zoom` and the keywords `Slack` where it returned the vendors `Zoom`, `Slack`
and the keywords `hacked` without the comment. -/
theorem comment_line_changes_result :
    insertLine "Zoom\nSlack\n\nhacked".toList 1 "#c".toList = "Zoom\n#c\nSlack\n\nhacked".toList
    ∧ rawLinesOf "Zoom\n#c\nSlack\n\nhacked".toList = rawLinesOf "Zoom\nSlack\n\nhacked".toList
    ∧ splitOnBlankBlocks "Zoom\nSlack\n\nhacked".toList =
        ["Zoom\nSlack".toList, "hacked".toList]
    ∧ splitOnBlankBlocks "Zoom\n#c\nSlack\n\nhacked".toList =
        ["Zoom".toList, "Slack".toList, "hacked".toList]
    ∧ parseVendorsKeywords "Zoom\nSlack\n\nhacked".toList =
        .ok (["Zoom".toList, "Slack".toList], ["hacked".toList])
    ∧ parseVendorsKeywords "Zoom\n#c\nSlack\n\nhacked".toList =
        .ok (["Zoom".toList], ["Slack".toList]) := by
  decide

/-- Where the code does ignore a comment line. Inserting a line that starts
with `#` after trimming, shorter than the scanner's 65536 bytes, leaves the
result of the parser unchanged whenever the labeled pass finds a vendor or a
keyword, and whenever the line before the inserted one or the line after it is
absent, blank or a comment. -/
theorem comment_line_ignored (content c : Str) (i : Nat)
    (hnl : ∀ x ∈ c, x ≠ '\n') (hc : hasPrefix (trimSpace c) ['#'] = true)
    (hlen : byteLen c < maxScanTokenSize)
    (h : (labeledPass (rawLinesOf content)).1 ≠ []
      ∨ (labeledPass (rawLinesOf content)).2 ≠ []
      ∨ (∀ l, ((linesOf content).take i).getLast? = some l →
          isContentLine (trimSpace l) = false)
      ∨ (∀ l, ((linesOf content).drop i).head? = some l →
          isContentLine (trimSpace l) = false)) :
    parseVendorsKeywords (insertLine content i c) = parseVendorsKeywords content := by
  apply parse_congr (tooLong_insertLine content i hnl hlen) (rawLinesOf_insertLine content i hnl hc)
  intro hl
  rcases h with h | h | h | h
  · rw [hl] at h; exact absurd rfl h
  · rw [hl] at h; exact absurd rfl h
  · exact splitOnBlankBlocks_insertLine content i hnl hc (Or.inl h)
  · exact splitOnBlankBlocks_insertLine content i hnl hc (Or.inr h)

/-- A file in block form with a comment inserted between its two vendor lines. -/
theorem comment_line_ignored_block_form :
    parseVendorsKeywords
        (insertLine "vendors:\nZoom\nSlack\nkeywords:\nhacked".toList 2 "# note".toList) =
      parseVendorsKeywords "vendors:\nZoom\nSlack\nkeywords:\nhacked".toList :=
  comment_line_ignored "vendors:\nZoom\nSlack\nkeywords:\nhacked".toList "# note".toList 2
    (by decide) (by decide) (by decide) (Or.inl (by decide))

/-! ## Indices stay in range -/

theorem finish_ne_panic (v k : List Str) : finish v k ≠ .error .indexOutOfRange := by
  unfold finish
  split_ifs <;> simp

theorem fallbackPass_ne_panic (content : Str) (v k : List Str) :
    fallbackPass content v k ≠ .error .indexOutOfRange := by
  unfold fallbackPass
  simp only []
  split_ifs with h
  · cases hb : splitOnBlankBlocks content with
    | nil => rw [hb] at h; simp at h
    | cons b0 t =>
      cases t with
      | nil => rw [hb] at h; simp at h
      | cons b1 r => simpa using finish_ne_panic _ _
  · exact finish_ne_panic v k

theorem parse_ne_panic (content : Str) :
    parseVendorsKeywords content ≠ .error .indexOutOfRange := by
  rw [parse_eq]
  split_ifs
  · simp
  · simp
  · simp
  · exact fallbackPass_ne_panic _ _ _

/-! ## No mixing of the labeled pass with the fallback -/

theorem parse_of_rawLines {content : Str} {rawLines : List Str}
    (hr : readRawLines content = .ok rawLines) :
    parseVendorsKeywords content =
      if 0 < (labeledPass rawLines).1.length ∧ 0 < (labeledPass rawLines).2.length then
        .ok (labeledPass rawLines)
      else fallbackPass content (labeledPass rawLines).1 (labeledPass rawLines).2 := by
  unfold parseVendorsKeywords
  rw [hr]

/-- C11. On every file content that reaches the labeled pass: when that pass
yields exactly one non-empty list, the parser fails with the error that
vendors and keywords could not both be located, whatever the blocks of the
content are; when it yields two non-empty lists, the result is exactly those
two normalized lists. -/
theorem no_mixing_with_fallback (content : Str) (rawLines : List Str)
    (hr : readRawLines content = .ok rawLines) :
    ((((labeledPass rawLines).1 ≠ [] ∧ (labeledPass rawLines).2 = []) ∨
        ((labeledPass rawLines).1 = [] ∧ (labeledPass rawLines).2 ≠ [])) →
      parseVendorsKeywords content = .error .notLocated)
    ∧ (((labeledPass rawLines).1 ≠ [] ∧ (labeledPass rawLines).2 ≠ []) →
      parseVendorsKeywords content = .ok (labeledPass rawLines)) := by
  rw [parse_of_rawLines hr]
  constructor
  · intro h
    have hcond : ¬ (0 < (labeledPass rawLines).1.length ∧ 0 < (labeledPass rawLines).2.length) := by
      rintro ⟨h1, h2⟩
      rcases h with ⟨-, hk⟩ | ⟨hv, -⟩
      · rw [hk] at h2; simp at h2
      · rw [hv] at h1; simp at h1
    rw [if_neg hcond]
    rcases h with ⟨hv, hk⟩ | ⟨hv, hk⟩
    · rw [fallbackPass_of_labeled_entry content (Or.inl hv), hk]
      exact finish_of_nil_right _
    · rw [fallbackPass_of_labeled_entry content (Or.inr hk), hv]
      exact finish_of_nil_left _
  · intro h
    rw [if_pos ⟨List.length_pos.2 h.1, List.length_pos.2 h.2⟩]

/-- C11, at a file with the label `vendors:` only and three blocks. -/
theorem no_mixing_with_fallback_witness :
    ((((labeledPass ["vendors: Zoom".toList, "hacked".toList, "more".toList]).1 ≠ [] ∧
          (labeledPass ["vendors: Zoom".toList, "hacked".toList, "more".toList]).2 = []) ∨
        ((labeledPass ["vendors: Zoom".toList, "hacked".toList, "more".toList]).1 = [] ∧
          (labeledPass ["vendors: Zoom".toList, "hacked".toList, "more".toList]).2 ≠ [])) →
      parseVendorsKeywords "vendors: Zoom\n\nhacked\n\nmore".toList = .error .notLocated)
    ∧ (((labeledPass ["vendors: Zoom".toList, "hacked".toList, "more".toList]).1 ≠ [] ∧
          (labeledPass ["vendors: Zoom".toList, "hacked".toList, "more".toList]).2 ≠ []) →
      parseVendorsKeywords "vendors: Zoom\n\nhacked\n\nmore".toList =
        .ok (labeledPass ["vendors: Zoom".toList, "hacked".toList, "more".toList])) :=
  no_mixing_with_fallback "vendors: Zoom\n\nhacked\n\nmore".toList
    ["vendors: Zoom".toList, "hacked".toList, "more".toList] (by decide)

/-! ## Labels in any letter case -/

theorem toLowerRune_of_space {c : Char} (h : isSpace c = true) : toLowerRune c = c := by
  have hn : ¬ (65 ≤ c.toNat ∧ c.toNat ≤ 90) ∧ c.toNat ≠ 0x212A ∧ c.toNat ≠ 0x130 := by
    simp only [isSpace, Bool.or_eq_true, beq_iff_eq, Bool.and_eq_true, decide_eq_true_eq] at h
    omega
  simp [toLowerRune, hn.1, hn.2.1, hn.2.2]

theorem toLowerRune_eq_colon {c : Char} (h : toLowerRune c = ':') : c = ':' := by
  unfold toLowerRune at h
  split_ifs at h with h1 h2 h3
  · exfalso
    obtain ⟨a, b⟩ := h1
    revert h
    generalize c.toNat = n at a b
    interval_cases n <;> decide
  · exact absurd h (by decide)
  · exact absurd h (by decide)
  · exact h

theorem label_no_space {l label : Str} (h : toLower l = label)
    (hl : ∀ x ∈ label, isSpace x = false) : ∀ c ∈ l, isSpace c = false := by
  intro c hc
  by_contra hs
  have hs2 : isSpace c = true := by simpa using hs
  have hmem : toLowerRune c ∈ label := by
    rw [← h]; exact List.mem_map.2 ⟨c, hc, rfl⟩
  rw [toLowerRune_of_space hs2] at hmem
  rw [hl c hmem] at hs2
  cases hs2

theorem label_split {l pre : Str} (h : toLower l = pre ++ [':']) (hpre : ∀ c ∈ pre, c ≠ ':') :
    ∃ l1, l = l1 ++ [':'] ∧ toLower l1 = pre ∧ ∀ c ∈ l1, c ≠ ':' := by
  unfold toLower at h
  obtain ⟨l1, l2, hl, h1, h2⟩ := List.map_eq_append_iff.1 h
  obtain ⟨c, t, hl2, hc, ht⟩ := List.map_eq_cons_iff.1 h2
  have ht2 : t = [] := by simpa using ht
  subst ht2
  have hc2 := toLowerRune_eq_colon hc
  subst hc2
  refine ⟨l1, by rw [hl, hl2], h1, ?_⟩
  intro c hc1 hcc
  subst hcc
  have : toLowerRune ':' ∈ pre := by
    rw [← h1]; exact List.mem_map.2 ⟨':', hc1, rfl⟩
  exact hpre _ this (by decide)

theorem label_line {l pre : Str} (h : toLower l = pre ++ [':'])
    (hpre : ∀ c ∈ pre, c ≠ ':' ∧ isSpace c = false)
    (hhead : ∃ a t, pre = a :: t ∧ a ≠ '#') (X : Str) :
    trimSpace (l ++ X) = l ++ X.rdropWhile isSpace
    ∧ isContentLine (l ++ X.rdropWhile isSpace) = true
    ∧ afterColon (l ++ X.rdropWhile isSpace) = trimSpace X
    ∧ toLower (l ++ X.rdropWhile isSpace) = pre ++ [':'] ++ toLower (X.rdropWhile isSpace) := by
  obtain ⟨l1, hl, hl1, hcolon⟩ := label_split h (fun c hc => (hpre c hc).1)
  obtain ⟨a, t, hat, ha⟩ := hhead
  have hsp := label_no_space hl1 (fun c hc => (hpre c hc).2)
  rw [hat] at hl1
  obtain ⟨b, t', hbt, hb, -⟩ := List.map_eq_cons_iff.1 hl1
  have hbs : isSpace b = false := hsp b (by rw [hbt]; simp)
  have hbh : b ≠ '#' := by
    intro hbb
    rw [hbb] at hb
    exact ha (hb.symm.trans (by decide))
  have hform : ∀ Y : Str, l ++ Y = b :: (t' ++ ':' :: Y) := by
    intro Y; rw [hl, hbt]; simp
  refine ⟨?_, ?_, ?_, ?_⟩
  · rw [hform, hform]
    exact trimSpace_label t' X hbs (by decide)
  · rw [hform]
    simp [isContentLine, hasPrefix, List.isPrefixOf, Ne.symm hbh]
  · have : l ++ X.rdropWhile isSpace = l1 ++ ':' :: X.rdropWhile isSpace := by
      rw [hl]; simp
    rw [this, afterColon_label l1 _ hcolon, trimSpace_rdropWhile]
  · unfold toLower at h ⊢
    rw [List.map_append, h]

theorem vendors_label_line {lv : Str} (hv : toLower lv = "vendors:".toList) (X : Str) :
    trimSpace (lv ++ X) = lv ++ X.rdropWhile isSpace
    ∧ isContentLine (lv ++ X.rdropWhile isSpace) = true
    ∧ afterColon (lv ++ X.rdropWhile isSpace) = trimSpace X
    ∧ hasPrefix (toLower (lv ++ X.rdropWhile isSpace)) "vendors:".toList = true := by
  have hv2 : toLower lv = "vendors".toList ++ [':'] := hv
  obtain ⟨h1, h2, h3, h4⟩ := label_line hv2 (by decide) ⟨'v', "endors".toList, rfl, by decide⟩ X
  refine ⟨h1, h2, h3, ?_⟩
  rw [h4]
  unfold hasPrefix
  rw [List.isPrefixOf_iff_prefix]
  exact List.prefix_append _ _

theorem keywords_label_line {lk : Str} (hk : toLower lk = "keywords:".toList) (X : Str) :
    trimSpace (lk ++ X) = lk ++ X.rdropWhile isSpace
    ∧ isContentLine (lk ++ X.rdropWhile isSpace) = true
    ∧ afterColon (lk ++ X.rdropWhile isSpace) = trimSpace X
    ∧ hasPrefix (toLower (lk ++ X.rdropWhile isSpace)) "vendors:".toList = false
    ∧ hasPrefix (toLower (lk ++ X.rdropWhile isSpace)) "keywords:".toList = true := by
  have hk2 : toLower lk = "keywords".toList ++ [':'] := hk
  obtain ⟨h1, h2, h3, h4⟩ := label_line hk2 (by decide) ⟨'k', "eywords".toList, rfl, by decide⟩ X
  refine ⟨h1, h2, h3, ?_, ?_⟩
  · rw [h4]
    rfl
  · rw [h4]
    unfold hasPrefix
    rw [List.isPrefixOf_iff_prefix]
    exact List.prefix_append _ _

/-! ## Contents without blank lines and comments -/

theorem foldl_blockStep_content {ls : List Str}
    (hc : ∀ l ∈ ls, isContentLine (trimSpace l) = true) (st : BlockState) :
    ls.foldl blockStep st = ⟨st.blocks, st.cur ++ ls.map trimSpace⟩ := by
  induction ls generalizing st with
  | nil => simp
  | cons a t ih =>
    rw [List.foldl_cons, blockStep_content (hc a (by simp)),
      ih (fun l hl => hc l (by simp [hl]))]
    simp

theorem rawLinesOf_of_content_lines {content : Str} {ls : List Str}
    (hlines : linesOf content = ls) (hc : ∀ l ∈ ls, isContentLine (trimSpace l) = true) :
    rawLinesOf content = ls.map trimSpace := by
  unfold rawLinesOf
  rw [hlines, List.filter_eq_self]
  intro t ht
  obtain ⟨l, hl, rfl⟩ := List.mem_map.1 ht
  exact hc l hl

theorem parse_of_content_lines {content : Str} {ls : List Str}
    (hlines : linesOf content = ls) (hne : ls ≠ [])
    (hc : ∀ l ∈ ls, isContentLine (trimSpace l) = true) :
    parseVendorsKeywords content =
      if ls.any tooLong then .error .scanner
      else finish (labeledPass (ls.map trimSpace)).1 (labeledPass (ls.map trimSpace)).2 := by
  by_cases hlong : ls.any tooLong = true
  · rw [if_pos hlong, parse_eq, hlines, if_pos hlong]
  · rw [if_neg hlong]
    have hlong2 : (linesOf content).any tooLong = false := by
      rw [hlines]; simpa using hlong
    have hraw := rawLinesOf_of_content_lines hlines hc
    have hblocks : (splitOnBlankBlocks content).length < 2 := by
      rw [splitOnBlankBlocks_eq, hlines, foldl_blockStep_content hc]
      simp only [List.nil_append]
      split_ifs <;> simp
    rw [parse_of_few_blocks hlong2 (by rw [hraw]; simpa using hne) hblocks, hraw]

theorem labeledPass_inline {lv lk : Str}
    (hp1 : hasPrefix (toLower lv) "vendors:".toList = true)
    (hq2 : hasPrefix (toLower lk) "vendors:".toList = false)
    (hp2 : hasPrefix (toLower lk) "keywords:".toList = true) :
    labeledPass [lv, lk] =
      (normalizeList (splitCSV (afterColon lv)), normalizeList (splitCSV (afterColon lk))) := by
  unfold labeledPass
  simp only [List.foldl_cons, List.foldl_nil, labeledStep, hp1, hq2, hp2, if_true,
    Bool.false_eq_true, if_false, List.nil_append]

theorem labeledPass_inline_swapped {lv lk : Str}
    (hp1 : hasPrefix (toLower lv) "vendors:".toList = true)
    (hq2 : hasPrefix (toLower lk) "vendors:".toList = false)
    (hp2 : hasPrefix (toLower lk) "keywords:".toList = true) :
    labeledPass [lk, lv] =
      (normalizeList (splitCSV (afterColon lv)), normalizeList (splitCSV (afterColon lk))) := by
  unfold labeledPass
  simp only [List.foldl_cons, List.foldl_nil, labeledStep, hp1, hq2, hp2, if_true,
    Bool.false_eq_true, if_false, List.nil_append]

theorem labeledPass_block {lv lk t1 t2 : Str}
    (hp1 : hasPrefix (toLower lv) "vendors:".toList = true)
    (hq2 : hasPrefix (toLower lk) "vendors:".toList = false)
    (hp2 : hasPrefix (toLower lk) "keywords:".toList = true)
    (hn1 : hasLabel t1 = false) (hn2 : hasLabel t2 = false) :
    labeledPass [lv, t1, lk, t2] =
      (normalizeList (splitCSV (afterColon lv) ++ splitCSV t1),
        normalizeList (splitCSV (afterColon lk) ++ splitCSV t2)) := by
  simp only [hasLabel, Bool.or_eq_false_iff] at hn1 hn2
  obtain ⟨a1, b1⟩ := hn1
  obtain ⟨a2, b2⟩ := hn2
  unfold labeledPass
  simp only [List.foldl_cons, List.foldl_nil, labeledStep, hp1, hq2, hp2, a1, b1, a2, b2, if_true,
    Bool.false_eq_true, if_false, List.nil_append]

theorem ne_newline_of_not_space {c : Char} (h : isSpace c = false) : c ≠ '\n' := by
  intro hc
  rw [hc] at h
  exact absurd h (by decide)

theorem trimSpace_space_cons (L : Str) : trimSpace (' ' :: L) = trimSpace L :=
  trimSpace_append_left (a := [' ']) L (by decide)

theorem rdropWhile_nil_space : ([] : Str).rdropWhile isSpace = [] := by
  simp [List.rdropWhile]

theorem splitCSV_nil : splitCSV [] = [] := by decide

theorem utf8Len_le (c : Char) : utf8Len c ≤ 4 := by
  unfold utf8Len
  split_ifs <;> omega

theorem byteLen_le (l : Str) : byteLen l ≤ 4 * l.length := by
  induction l with
  | nil => simp [byteLen]
  | cons a t ih =>
    rw [byteLen_cons, List.length_cons]
    have := utf8Len_le a
    omega

theorem byteLen_label {l label : Str} (h : toLower l = label) : byteLen l ≤ 4 * label.length := by
  have : l.length = label.length := by
    rw [← h]; simp [toLower]
  rw [← this]
  exact byteLen_le l

theorem label_newline_free {l label : Str} (h : toLower l = label)
    (hl : ∀ x ∈ label, isSpace x = false) (X : Str) (hX : ∀ c ∈ X, c ≠ '\n') :
    ∀ c ∈ l ++ X, c ≠ '\n' := by
  intro c hc
  rcases List.mem_append.1 hc with h1 | h1
  · exact ne_newline_of_not_space (label_no_space h hl c h1)
  · exact hX c h1

theorem newline_free_space_cons {L : Str} (h : ∀ c ∈ L, c ≠ '\n') :
    ∀ c ∈ ' ' :: L, c ≠ '\n' := by
  intro c hc
  rcases List.mem_cons.1 hc with h1 | h1
  · rw [h1]; decide
  · exact h c h1

theorem parse_inline_any {lv lk : Str} (L1 L2 : Str)
    (hv : toLower lv = "vendors:".toList) (hk : toLower lk = "keywords:".toList)
    (h1 : ∀ c ∈ L1, c ≠ '\n') (h2 : ∀ c ∈ L2, c ≠ '\n') :
    parseVendorsKeywords ((lv ++ ' ' :: L1) ++ '\n' :: (lk ++ ' ' :: L2)) =
      if [lv ++ ' ' :: L1, lk ++ ' ' :: L2].any tooLong then .error .scanner
      else finish (normalizeList (splitCSV (trimSpace L1)))
        (normalizeList (splitCSV (trimSpace L2))) := by
  have hA := label_newline_free hv (by decide) _ (newline_free_space_cons h1)
  have hB := label_newline_free hk (by decide) _ (newline_free_space_cons h2)
  have hlines : linesOf ((lv ++ ' ' :: L1) ++ '\n' :: (lk ++ ' ' :: L2)) =
      [lv ++ ' ' :: L1, lk ++ ' ' :: L2] := by
    rw [linesOf_append_newline _ hA, linesOf_of_no_newline hB]
  obtain ⟨a1, a2, a3, a4⟩ := vendors_label_line hv (' ' :: L1)
  obtain ⟨b1, b2, b3, b4, b5⟩ := keywords_label_line hk (' ' :: L2)
  rw [parse_of_content_lines hlines (by simp)
    (by
      intro l hl
      simp only [List.mem_cons, List.mem_singleton, List.not_mem_nil, or_false] at hl
      rcases hl with rfl | rfl
      · rw [a1]; exact a2
      · rw [b1]; exact b2)]
  simp only [List.map_cons, List.map_nil, a1, b1]
  rw [labeledPass_inline a4 b4 b5, a3, b3, trimSpace_space_cons, trimSpace_space_cons]

theorem parse_inline_swapped_any {lv lk : Str} (L1 L2 : Str)
    (hv : toLower lv = "vendors:".toList) (hk : toLower lk = "keywords:".toList)
    (h1 : ∀ c ∈ L1, c ≠ '\n') (h2 : ∀ c ∈ L2, c ≠ '\n') :
    parseVendorsKeywords ((lk ++ ' ' :: L2) ++ '\n' :: (lv ++ ' ' :: L1)) =
      if [lk ++ ' ' :: L2, lv ++ ' ' :: L1].any tooLong then .error .scanner
      else finish (normalizeList (splitCSV (trimSpace L1)))
        (normalizeList (splitCSV (trimSpace L2))) := by
  have hA := label_newline_free hv (by decide) _ (newline_free_space_cons h1)
  have hB := label_newline_free hk (by decide) _ (newline_free_space_cons h2)
  have hlines : linesOf ((lk ++ ' ' :: L2) ++ '\n' :: (lv ++ ' ' :: L1)) =
      [lk ++ ' ' :: L2, lv ++ ' ' :: L1] := by
    rw [linesOf_append_newline _ hB, linesOf_of_no_newline hA]
  obtain ⟨a1, a2, a3, a4⟩ := vendors_label_line hv (' ' :: L1)
  obtain ⟨b1, b2, b3, b4, b5⟩ := keywords_label_line hk (' ' :: L2)
  rw [parse_of_content_lines hlines (by simp)
    (by
      intro l hl
      simp only [List.mem_cons, List.mem_singleton, List.not_mem_nil, or_false] at hl
      rcases hl with rfl | rfl
      · rw [b1]; exact b2
      · rw [a1]; exact a2)]
  simp only [List.map_cons, List.map_nil, a1, b1]
  rw [labeledPass_inline_swapped a4 b4 b5, a3, b3, trimSpace_space_cons, trimSpace_space_cons]

theorem parse_block_any {lv lk : Str} (L1 L2 : Str)
    (hv : toLower lv = "vendors:".toList) (hk : toLower lk = "keywords:".toList)
    (h1 : ∀ c ∈ L1, c ≠ '\n') (h2 : ∀ c ∈ L2, c ≠ '\n')
    (hc1 : isContentLine (trimSpace L1) = true) (hc2 : isContentLine (trimSpace L2) = true)
    (hn1 : hasLabel (trimSpace L1) = false) (hn2 : hasLabel (trimSpace L2) = false) :
    parseVendorsKeywords (lv ++ '\n' :: (L1 ++ '\n' :: (lk ++ '\n' :: L2))) =
      if [lv, L1, lk, L2].any tooLong then .error .scanner
      else finish (normalizeList (splitCSV (trimSpace L1)))
        (normalizeList (splitCSV (trimSpace L2))) := by
  have hA : ∀ c ∈ lv, c ≠ '\n' := fun c hc =>
    ne_newline_of_not_space (label_no_space hv (by decide) c hc)
  have hB : ∀ c ∈ lk, c ≠ '\n' := fun c hc =>
    ne_newline_of_not_space (label_no_space hk (by decide) c hc)
  have hlines : linesOf (lv ++ '\n' :: (L1 ++ '\n' :: (lk ++ '\n' :: L2))) =
      [lv, L1, lk, L2] := by
    rw [linesOf_append_newline _ hA, linesOf_append_newline _ h1, linesOf_append_newline _ hB,
      linesOf_of_no_newline h2]
  obtain ⟨a1, a2, a3, a4⟩ := vendors_label_line hv []
  obtain ⟨b1, b2, b3, b4, b5⟩ := keywords_label_line hk []
  simp only [rdropWhile_nil_space, List.append_nil, trimSpace_nil] at a1 a2 a3 a4 b1 b2 b3 b4 b5
  rw [parse_of_content_lines hlines (by simp)
    (by
      intro l hl
      simp only [List.mem_cons, List.mem_singleton, List.not_mem_nil, or_false] at hl
      rcases hl with rfl | rfl | rfl | rfl
      · rw [a1]; exact a2
      · exact hc1
      · rw [b1]; exact b2
      · exact hc2)]
  simp only [List.map_cons, List.map_nil, a1, b1]
  rw [labeledPass_block a4 b4 b5 hn1 hn2, a3, b3, splitCSV_nil]
  simp only [List.nil_append]

/-! ## The order of the inline-labeled lines -/

/-- C12. For every two single lines `L1` and `L2`, parsing `vendors: L1` /
`keywords: L2` gives the same result, the same two lists or the same failure,
as parsing `keywords: L2` / `vendors: L1`. -/
theorem inline_order_agnostic (L1 L2 : Str)
    (h1 : ∀ c ∈ L1, c ≠ '\n') (h2 : ∀ c ∈ L2, c ≠ '\n') :
    parseVendorsKeywords ("vendors: ".toList ++ L1 ++ '\n' :: ("keywords: ".toList ++ L2)) =
      parseVendorsKeywords ("keywords: ".toList ++ L2 ++ '\n' :: ("vendors: ".toList ++ L1)) := by
  have e1 := @parse_inline_any "vendors:".toList "keywords:".toList L1 L2
    (by decide) (by decide) h1 h2
  have e2 := @parse_inline_swapped_any "vendors:".toList "keywords:".toList L1 L2
    (by decide) (by decide) h1 h2
  have f1 : "vendors: ".toList ++ L1 = "vendors:".toList ++ ' ' :: L1 := rfl
  have f2 : "keywords: ".toList ++ L2 = "keywords:".toList ++ ' ' :: L2 := rfl
  rw [f1, f2, e1, e2]
  simp only [List.any_cons, List.any_nil, Bool.or_false]
  rw [Bool.or_comm]

/-- C12, at the lines `Zoom, Slack` and `hacked`. -/
theorem inline_order_agnostic_witness :
    parseVendorsKeywords ("vendors: ".toList ++ "Zoom, Slack".toList ++
        '\n' :: ("keywords: ".toList ++ "hacked".toList)) =
      parseVendorsKeywords ("keywords: ".toList ++ "hacked".toList ++
        '\n' :: ("vendors: ".toList ++ "Zoom, Slack".toList)) :=
  inline_order_agnostic "Zoom, Slack".toList "hacked".toList (by decide) (by decide)

/-! ## The block form -/

theorem tooLong_label {l label : Str} (h : toLower l = label) (hlen : label.length ≤ 16) :
    tooLong l = false := by
  apply tooLong_eq_false
  have := byteLen_label h
  have hm : maxScanTokenSize = 65536 := rfl
  omega

/-- C13, as stated, fails: with a vendor line of 65530 bytes the block form
parses, and the inline-labeled form, whose first line is 9 bytes longer, does
not fit the scanner's buffer. -/
theorem block_form_counterexample :
    (∀ c ∈ longToken, c ≠ '\n') ∧ (∀ c ∈ "x".toList, c ≠ '\n')
    ∧ isContentLine (trimSpace longToken) = true ∧ isContentLine (trimSpace "x".toList) = true
    ∧ hasLabel (trimSpace longToken) = false ∧ hasLabel (trimSpace "x".toList) = false
    ∧ parseVendorsKeywords ("vendors:".toList ++
        '\n' :: (longToken ++ '\n' :: ("keywords:".toList ++ '\n' :: "x".toList))) =
        .ok ([longToken], ["x".toList])
    ∧ parseVendorsKeywords ("vendors: ".toList ++ longToken ++
        '\n' :: ("keywords: ".toList ++ "x".toList)) = .error .scanner := by
  have hnl : ∀ c ∈ longToken, c ≠ '\n' := by
    intro c hc; rw [mem_longToken hc]; decide
  have hlab : hasLabel (trimSpace longToken) = false := by
    rw [trimSpace_of_trimmed (isToken_trimmed isToken_longToken)]
    exact hasLabel_longToken
  refine ⟨hnl, by decide, isContentLine_longToken, by decide, hlab, by decide, ?_,
    parse_vendors_longToken _⟩
  rw [@parse_block_any "vendors:".toList "keywords:".toList longToken "x".toList
    (by decide) (by decide) hnl (by decide) isContentLine_longToken (by decide) hlab (by decide)]
  have hlong : [("vendors:".toList : Str), longToken, "keywords:".toList, "x".toList].any tooLong
      = false := by
    simp only [List.any_cons, List.any_nil, Bool.or_false, Bool.or_eq_false_iff]
    refine ⟨by decide, ?_, by decide, by decide⟩
    apply tooLong_eq_false
    rw [byteLen_longToken]
    decide
  rw [hlong]
  simp only [Bool.false_eq_true, if_false]
  rw [normalizeList_splitCSV_token isToken_longToken, normalizeList_splitCSV_token isToken_x]
  rfl

/-- C13, amended. For two single lines `L1` and `L2` that after trimming are
non-blank, do not start with `#` and do not start, in any letter case, with
`vendors:` or `keywords:`, for labels written in any letter case, and for
inline lines `vendors: L1` and `keywords: L2` shorter than the scanner's 65536
bytes, parsing the four lines `vendors:` / `L1` / `keywords:` / `L2` gives the
same result as parsing the two lines `vendors: L1` / `keywords: L2`. -/
theorem block_agrees_with_inline (lv lk wv wk L1 L2 : Str)
    (hv : toLower lv = "vendors:".toList) (hk : toLower lk = "keywords:".toList)
    (hwv : toLower wv = "vendors:".toList) (hwk : toLower wk = "keywords:".toList)
    (h1 : ∀ c ∈ L1, c ≠ '\n') (h2 : ∀ c ∈ L2, c ≠ '\n')
    (hb1 : trimSpace L1 ≠ []) (hb2 : trimSpace L2 ≠ [])
    (hc1 : hasPrefix (trimSpace L1) ['#'] = false) (hc2 : hasPrefix (trimSpace L2) ['#'] = false)
    (hn1 : hasLabel (trimSpace L1) = false) (hn2 : hasLabel (trimSpace L2) = false)
    (hlen1 : byteLen (wv ++ ' ' :: L1) < maxScanTokenSize)
    (hlen2 : byteLen (wk ++ ' ' :: L2) < maxScanTokenSize) :
    parseVendorsKeywords (lv ++ '\n' :: (L1 ++ '\n' :: (lk ++ '\n' :: L2))) =
      parseVendorsKeywords ((wv ++ ' ' :: L1) ++ '\n' :: (wk ++ ' ' :: L2)) := by
  rw [parse_block_any L1 L2 hv hk h1 h2 ((isContentLine_iff _).2 ⟨hb1, hc1⟩)
    ((isContentLine_iff _).2 ⟨hb2, hc2⟩) hn1 hn2, parse_inline_any L1 L2 hwv hwk h1 h2]
  have e1 : byteLen L1 < maxScanTokenSize := by
    rw [byteLen_append, byteLen_cons] at hlen1; omega
  have e2 : byteLen L2 < maxScanTokenSize := by
    rw [byteLen_append, byteLen_cons] at hlen2; omega
  have hA : [lv, L1, lk, L2].any tooLong = false := by
    simp only [List.any_cons, List.any_nil, Bool.or_false, Bool.or_eq_false_iff]
    exact ⟨tooLong_label hv (by decide), tooLong_eq_false e1, tooLong_label hk (by decide),
      tooLong_eq_false e2⟩
  have hB : [wv ++ ' ' :: L1, wk ++ ' ' :: L2].any tooLong = false := by
    simp only [List.any_cons, List.any_nil, Bool.or_false, Bool.or_eq_false_iff]
    exact ⟨tooLong_eq_false hlen1, tooLong_eq_false hlen2⟩
  rw [hA, hB]

/-- C13, amended, at the labels `Vendors:` and `KEYWORDS:` of the block form
and the lines `Zoom, Slack` and `hacked, breached`. -/
theorem block_agrees_with_inline_witness :
    parseVendorsKeywords ("Vendors:".toList ++
        '\n' :: ("Zoom, Slack".toList ++
        '\n' :: ("KEYWORDS:".toList ++ '\n' :: "hacked, breached".toList))) =
      parseVendorsKeywords (("vendors:".toList ++ ' ' :: "Zoom, Slack".toList) ++
        '\n' :: ("keywords:".toList ++ ' ' :: "hacked, breached".toList)) :=
  block_agrees_with_inline "Vendors:".toList "KEYWORDS:".toList "vendors:".toList
    "keywords:".toList "Zoom, Slack".toList "hacked, breached".toList
    (by decide) (by decide) (by decide) (by decide) (by decide) (by decide) (by decide)
    (by decide) (by decide) (by decide) (by decide) (by decide) (by decide) (by decide)

/-! ## The three separators of the field splitter -/

theorem replaceAll_idem (s : Str) :
    replaceAll (replaceAll s ';' ',') ';' ',' = replaceAll s ';' ',' := by
  unfold replaceAll
  rw [List.map_map]
  apply List.map_congr_left
  intro c _
  by_cases hc : c = ';' <;> simp [hc]

theorem splitCSV_replaceAll (s : Str) : splitCSV (replaceAll s ';' ',') = splitCSV s := by
  unfold splitCSV
  simp only [replaceAll_idem]

theorem replaceAll_token {t : Str} (h : IsToken t) : replaceAll t ';' ',' = t := by
  unfold replaceAll
  conv_rhs => rw [← List.map_id t]
  apply List.map_congr_left
  intro c hc
  simp [(h.2 c hc).2.2]

theorem replaceAll_append (a b : Str) :
    replaceAll (a ++ b) ';' ',' = replaceAll a ';' ',' ++ replaceAll b ';' ',' := by
  simp [replaceAll]

theorem replaceAll_join_semicolon (ts : List Str) (h : ∀ u ∈ ts, IsToken u) :
    replaceAll (join ts "; ".toList) ';' ',' = join ts ", ".toList := by
  induction ts with
  | nil => rfl
  | cons t rest ih =>
    cases rest with
    | nil =>
      rw [join_singleton, join_singleton]
      exact replaceAll_token (h t (by simp))
    | cons u r =>
      rw [join_cons_cons, join_cons_cons, replaceAll_append, replaceAll_append,
        ih (fun x hx => h x (by simp [List.mem_cons.1 hx])), replaceAll_token (h t (by simp))]
      rfl

theorem splitCSV_join_semicolon (ts : List Str) (h : ∀ u ∈ ts, IsToken u) :
    splitCSV (join ts "; ".toList) = ts := by
  rw [← splitCSV_replaceAll, replaceAll_join_semicolon ts h]
  exact splitCSV_join_comma ts h

theorem splitOnP_join_space (t : Str) (rest : List Str) (h : ∀ u ∈ t :: rest, IsToken u) :
    (join (t :: rest) " ".toList).splitOnP isSpace = t :: rest := by
  induction rest generalizing t with
  | nil =>
    rw [join_singleton]
    exact List.splitOnP_eq_single isSpace t
      (fun c hc => by simp [((h t (by simp)).2 c hc).1])
  | cons u r ih =>
    rw [join_cons_cons]
    have hform : t ++ " ".toList ++ join (u :: r) " ".toList =
        t ++ ' ' :: join (u :: r) " ".toList := by simp
    rw [hform, List.splitOnP_first isSpace t
      (fun c hc => by simp [((h t (by simp)).2 c hc).1]) ' ' (by decide),
      ih u (fun x hx => h x (by simp [List.mem_cons.1 hx]))]

theorem join_space_no_separator (ts : List Str) (h : ∀ u ∈ ts, IsToken u) :
    (join ts " ".toList).any isSeparator = false := by
  induction ts with
  | nil => rfl
  | cons t rest ih =>
    have ht : t.any isSeparator = false :=
      List.any_eq_false.2 (fun c hc => by simp [isToken_not_separator (h t (by simp)) c hc])
    cases rest with
    | nil => rw [join_singleton]; exact ht
    | cons u r =>
      rw [join_cons_cons, List.any_append, List.any_append, ht,
        ih (fun x hx => h x (by simp [List.mem_cons.1 hx]))]
      rfl

theorem splitCSV_join_space (ts : List Str) (h : ∀ u ∈ ts, IsToken u) :
    splitCSV (join ts " ".toList) = ts := by
  rw [splitCSV_eq_spec, splitCSVSpec, join_space_no_separator ts h]
  simp only [Bool.false_eq_true, if_false]
  cases ts with
  | nil => rfl
  | cons t rest =>
    rw [splitOnP_join_space t rest h, List.filter_eq_self]
    intro x hx
    simp [(h x hx).1]

/-- C14. For every list `ts` of tokens (non-empty, without white space, comma
or semicolon), `splitCSV` returns exactly `ts` on `ts` joined by `, `, on `ts`
joined by `; ` and on `ts` joined by a single space. -/
theorem splitCSV_round_trip (ts : List Str) (h : ∀ t ∈ ts, IsToken t) :
    splitCSV (join ts ", ".toList) = ts
    ∧ splitCSV (join ts "; ".toList) = ts
    ∧ splitCSV (join ts " ".toList) = ts :=
  ⟨splitCSV_join_comma ts h, splitCSV_join_semicolon ts h, splitCSV_join_space ts h⟩

/-- C14, at the tokens `Zoom`, `Slack`, `Okta`. -/
theorem splitCSV_round_trip_witness :
    splitCSV (join ["Zoom".toList, "Slack".toList, "Okta".toList] ", ".toList) =
      ["Zoom".toList, "Slack".toList, "Okta".toList]
    ∧ splitCSV (join ["Zoom".toList, "Slack".toList, "Okta".toList] "; ".toList) =
      ["Zoom".toList, "Slack".toList, "Okta".toList]
    ∧ splitCSV (join ["Zoom".toList, "Slack".toList, "Okta".toList] " ".toList) =
      ["Zoom".toList, "Slack".toList, "Okta".toList] :=
  splitCSV_round_trip ["Zoom".toList, "Slack".toList, "Okta".toList]
    (by intro t ht; simp only [List.mem_cons, List.mem_singleton, List.not_mem_nil, or_false] at ht
        rcases ht with rfl | rfl | rfl <;> exact ⟨by decide, by decide⟩)

/-! ## A comment line is a block boundary -/

theorem blockStep_boundary_congr {c d : Str} (hc : isContentLine (trimSpace c) = false)
    (hd : isContentLine (trimSpace d) = false) (st : BlockState) :
    blockStep st c = blockStep st d := by
  rw [blockStep_boundary hc, blockStep_boundary hd]

theorem foldl_blockStep_set (ls : List Str) (i : Nat) {c d : Str} (st : BlockState)
    (hi : ls[i]? = some c) (hc : isContentLine (trimSpace c) = false)
    (hd : isContentLine (trimSpace d) = false) :
    (ls.set i d).foldl blockStep st = ls.foldl blockStep st := by
  induction ls generalizing i st with
  | nil => simp
  | cons a t ih =>
    cases i with
    | zero =>
      simp only [List.getElem?_cons_zero, Option.some.injEq] at hi
      subst hi
      simp only [List.set_cons_zero, List.foldl_cons]
      rw [blockStep_boundary_congr hd hc]
    | succ j =>
      simp only [List.getElem?_cons_succ] at hi
      simp only [List.set_cons_succ, List.foldl_cons]
      exact ih j _ hi

theorem rawLines_set (ls : List Str) (i : Nat) {c d : Str}
    (hi : ls[i]? = some c) (hc : isContentLine (trimSpace c) = false)
    (hd : isContentLine (trimSpace d) = false) :
    ((ls.set i d).map trimSpace).filter isContentLine =
      (ls.map trimSpace).filter isContentLine := by
  induction ls generalizing i with
  | nil => simp
  | cons a t ih =>
    cases i with
    | zero =>
      simp only [List.getElem?_cons_zero, Option.some.injEq] at hi
      subst hi
      simp [List.filter_cons, hc, hd]
    | succ j =>
      simp only [List.getElem?_cons_succ] at hi
      simp only [List.set_cons_succ, List.map_cons, List.filter_cons]
      rw [ih j hi]

theorem any_tooLong_set (ls : List Str) (i : Nat) {c d : Str}
    (hi : ls[i]? = some c) (hc : tooLong c = false) (hd : tooLong d = false) :
    (ls.set i d).any tooLong = ls.any tooLong := by
  induction ls generalizing i with
  | nil => simp
  | cons a t ih =>
    cases i with
    | zero =>
      simp only [List.getElem?_cons_zero, Option.some.injEq] at hi
      subst hi
      simp [hc, hd]
    | succ j =>
      simp only [List.getElem?_cons_succ] at hi
      simp only [List.set_cons_succ, List.any_cons]
      rw [ih j hi]

theorem linesOf_replaceLine (content : Str) (i : Nat) {d : Str} (hd : ∀ x ∈ d, x ≠ '\n') :
    linesOf (replaceLine content i d) = (linesOf content).set i d := by
  unfold replaceLine
  apply linesOf_join
  · intro h0
    have := congrArg List.length h0
    simp only [List.length_set, List.length_nil] at this
    exact linesOf_ne_nil content (List.length_eq_zero.1 this)
  · intro l hl
    rcases List.mem_or_eq_of_mem_set hl with h | h
    · exact linesOf_newline_free content l h
    · rw [h]; exact hd

theorem isContentLine_blank : isContentLine (trimSpace []) = false := by
  rw [trimSpace_nil]; exact isContentLine_nil

theorem splitOnBlankBlocks_replaceLine (s : Str) (i : Nat) {c : Str}
    (hi : (linesOf s)[i]? = some c) (hc : hasPrefix (trimSpace c) ['#'] = true) :
    splitOnBlankBlocks (replaceLine s i []) = splitOnBlankBlocks s := by
  rw [splitOnBlankBlocks_eq, splitOnBlankBlocks_eq, linesOf_replaceLine s i (by simp),
    foldl_blockStep_set _ i _ hi (isContentLine_comment hc) isContentLine_blank]

theorem splitOnBlankBlocks_three {a c b : Str}
    (ha : ∀ x ∈ a, x ≠ '\n') (hcn : ∀ x ∈ c, x ≠ '\n') (hb : ∀ x ∈ b, x ≠ '\n')
    (hca : isContentLine (trimSpace a) = true) (hc : isContentLine (trimSpace c) = false)
    (hcb : isContentLine (trimSpace b) = true) :
    splitOnBlankBlocks (a ++ '\n' :: (c ++ '\n' :: b)) = [trimSpace a, trimSpace b] := by
  rw [splitOnBlankBlocks_eq, linesOf_append_newline _ ha, linesOf_append_newline _ hcn,
    linesOf_of_no_newline hb]
  simp only [List.foldl_cons, List.foldl_nil]
  rw [blockStep_content hcb, blockStep_boundary hc, blockStep_content hca]
  simp [join_singleton]

theorem mem_longComment {c : Char} (h : c ∈ longComment) : c = '#' :=
  List.eq_of_mem_replicate h

theorem longComment_newline_free : ∀ c ∈ longComment, c ≠ '\n' := by
  intro c hc; rw [mem_longComment hc]; decide

theorem byteLen_longComment : byteLen longComment = 65536 :=
  byteLen_replicate 65536 '#' (by decide)

theorem longComment_eq : longComment = '#' :: List.replicate 65535 '#' := by
  show List.replicate (65535 + 1) '#' = _
  rw [List.replicate_succ]

theorem trimSpace_longComment : trimSpace longComment = longComment := by
  apply trimSpace_of_trimmed
  apply trimmed_of_no_space
  intro c hc
  rw [mem_longComment hc]
  decide

theorem longComment_is_comment : hasPrefix (trimSpace longComment) ['#'] = true := by
  rw [trimSpace_longComment, longComment_eq]
  simp [hasPrefix, List.isPrefixOf]

theorem parse_longComment_first (B : Str) :
    parseVendorsKeywords (longComment ++ '\n' :: B) = .error .scanner := by
  apply parse_long_first_line _ _ longComment_newline_free
  rw [byteLen_longComment]
  decide

/-- C15, as stated, fails in its consequence for the parser: with a comment
line of 65536 bytes the file fails with the error of the scanner, and with
that line replaced by an empty line it parses. -/
theorem comment_boundary_counterexample :
    (linesOf (longComment ++ '\n' :: "vendors: a\nkeywords: b".toList))[0]? = some longComment
    ∧ hasPrefix (trimSpace longComment) ['#'] = true
    ∧ parseVendorsKeywords (longComment ++ '\n' :: "vendors: a\nkeywords: b".toList) =
        .error .scanner
    ∧ parseVendorsKeywords
        (replaceLine (longComment ++ '\n' :: "vendors: a\nkeywords: b".toList) 0 []) =
        .ok (["a".toList], ["b".toList]) := by
  have hlines := linesOf_append_newline "vendors: a\nkeywords: b".toList longComment_newline_free
  refine ⟨by rw [hlines]; rfl, longComment_is_comment, parse_longComment_first _, ?_⟩
  have e : replaceLine (longComment ++ '\n' :: "vendors: a\nkeywords: b".toList) 0 [] =
      "\nvendors: a\nkeywords: b".toList := by
    unfold replaceLine
    rw [hlines]
    decide
  rw [e]
  decide

/-- C15, amended. Replacing a line whose first non-white-space character is
`#` by an empty line leaves the blocks of `splitOnBlankBlocks` unchanged, and
leaves the result of the parser unchanged when that line is shorter than the
scanner's 65536 bytes; and such a line between two content lines puts them in
different blocks. -/
theorem comment_line_is_boundary (s c : Str) (i : Nat)
    (hi : (linesOf s)[i]? = some c) (hc : hasPrefix (trimSpace c) ['#'] = true) :
    splitOnBlankBlocks (replaceLine s i []) = splitOnBlankBlocks s
    ∧ (byteLen c < maxScanTokenSize →
        parseVendorsKeywords (replaceLine s i []) = parseVendorsKeywords s)
    ∧ (∀ a b : Str, (∀ x ∈ a, x ≠ '\n') → (∀ x ∈ b, x ≠ '\n') →
        isContentLine (trimSpace a) = true → isContentLine (trimSpace b) = true →
        splitOnBlankBlocks (a ++ '\n' :: (c ++ '\n' :: b)) = [trimSpace a, trimSpace b]) := by
  have hcn : ∀ x ∈ c, x ≠ '\n' :=
    linesOf_newline_free s c (List.getElem?_mem hi)
  refine ⟨splitOnBlankBlocks_replaceLine s i hi hc, ?_, ?_⟩
  · intro hlen
    apply parse_congr
    · rw [linesOf_replaceLine s i (by simp)]
      exact any_tooLong_set _ i hi (tooLong_eq_false hlen) tooLong_nil
    · unfold rawLinesOf
      rw [linesOf_replaceLine s i (by simp)]
      exact rawLines_set _ i hi (isContentLine_comment hc) isContentLine_blank
    · intro _
      exact splitOnBlankBlocks_replaceLine s i hi hc
  · intro a b ha hb hca hcb
    exact splitOnBlankBlocks_three ha hcn hb hca (isContentLine_comment hc) hcb

/-- C15, amended, at a file with a comment between the vendors `Zoom` and
`Slack`. -/
theorem comment_line_is_boundary_witness :
    splitOnBlankBlocks (replaceLine "Zoom\n# c\nSlack\n\nhacked".toList 1 []) =
      splitOnBlankBlocks "Zoom\n# c\nSlack\n\nhacked".toList
    ∧ (byteLen "# c".toList < maxScanTokenSize →
        parseVendorsKeywords (replaceLine "Zoom\n# c\nSlack\n\nhacked".toList 1 []) =
          parseVendorsKeywords "Zoom\n# c\nSlack\n\nhacked".toList)
    ∧ (∀ a b : Str, (∀ x ∈ a, x ≠ '\n') → (∀ x ∈ b, x ≠ '\n') →
        isContentLine (trimSpace a) = true → isContentLine (trimSpace b) = true →
        splitOnBlankBlocks (a ++ '\n' :: ("# c".toList ++ '\n' :: b)) =
          [trimSpace a, trimSpace b]) :=
  comment_line_is_boundary "Zoom\n# c\nSlack\n\nhacked".toList "# c".toList 1
    (by decide) (by decide)

/-! ## Lines before the first label -/

theorem linesOf_prependLines (P : List Str) (content : Str)
    (hP : ∀ p ∈ P, ∀ c ∈ p, c ≠ '\n') :
    linesOf (prependLines P content) = P ++ linesOf content := by
  induction P with
  | nil => rfl
  | cons a t ih =>
    show linesOf (a ++ '\n' :: prependLines t content) = _
    rw [linesOf_append_newline _ (hP a (by simp)), ih (fun p hp => hP p (by simp [hp]))]
    rfl

theorem readRawLines_ok {content : Str} {rawLines : List Str}
    (hr : readRawLines content = .ok rawLines) :
    (linesOf content).any tooLong = false ∧ rawLinesOf content = rawLines := by
  rw [readRawLines_eq] at hr
  by_cases h1 : (linesOf content).any tooLong = true
  · rw [if_pos h1] at hr; cases hr
  · rw [if_neg h1] at hr
    by_cases h2 : rawLinesOf content = []
    · rw [if_pos h2] at hr; cases hr
    · rw [if_neg h2] at hr
      simp only [Except.ok.injEq] at hr
      exact ⟨by simpa using h1, hr⟩

theorem labeledPass_append_no_label {pre : List Str} (h : ∀ l ∈ pre, hasLabel l = false)
    (ls : List Str) : labeledPass (pre ++ ls) = labeledPass ls := by
  unfold labeledPass
  rw [List.foldl_append, foldl_labeledStep_no_label h]

theorem labeledPass_nil : labeledPass [] = ([], []) := rfl

theorem parse_prependLines (P : List Str) (content : Str) (rawLines : List Str)
    (hP : ∀ p ∈ P, ∀ c ∈ p, c ≠ '\n') (hn : ∀ p ∈ P, hasLabel (trimSpace p) = false)
    (hlen : ∀ p ∈ P, byteLen p < maxScanTokenSize)
    (hr : readRawLines content = .ok rawLines)
    (hv : (labeledPass rawLines).1 ≠ []) (hk : (labeledPass rawLines).2 ≠ []) :
    parseVendorsKeywords (prependLines P content) = .ok (labeledPass rawLines) := by
  obtain ⟨hlong, hraw⟩ := readRawLines_ok hr
  have hlong2 : (linesOf (prependLines P content)).any tooLong = false := by
    rw [linesOf_prependLines P content hP, List.any_append, hlong, Bool.or_false,
      List.any_eq_false]
    intro p hp
    simp [tooLong_eq_false (hlen p hp)]
  have hraw2 : labeledPass (rawLinesOf (prependLines P content)) = labeledPass rawLines := by
    unfold rawLinesOf
    rw [linesOf_prependLines P content hP, List.map_append, List.filter_append]
    have : List.filter isContentLine (List.map trimSpace (linesOf content)) = rawLines := hraw
    rw [this]
    apply labeledPass_append_no_label
    intro l hl
    obtain ⟨p, hp, rfl⟩ := List.mem_map.1 (List.mem_filter.1 hl).1
    exact hn p hp
  have hne : rawLinesOf (prependLines P content) ≠ [] := by
    intro h0
    rw [h0, labeledPass_nil] at hraw2
    rw [← hraw2] at hv
    exact hv rfl
  rw [parse_eq, hlong2, hraw2]
  simp only [Bool.false_eq_true, if_false, hne]
  rw [if_pos ⟨List.length_pos.2 hv, List.length_pos.2 hk⟩]

theorem prependLines_cons (a : Str) (t : List Str) (content : Str) :
    prependLines (a :: t) content = a ++ '\n' :: prependLines t content := rfl

theorem prependLines_nil (content : Str) : prependLines [] content = content := rfl

theorem hasLabel_longComment : hasLabel (trimSpace longComment) = false := by
  rw [trimSpace_longComment, longComment_eq]
  decide

/-- C16, as stated, fails: a line of 65536 bytes before the labels, here a
comment, makes the parser fail with the error of the scanner. -/
theorem lines_before_label_counterexample :
    (∀ p ∈ [longComment], ∀ c ∈ p, c ≠ '\n')
    ∧ (∀ p ∈ [longComment], hasLabel (trimSpace p) = false)
    ∧ parseVendorsKeywords "vendors: a\nkeywords: b".toList =
        .ok (labeledPass ["vendors: a".toList, "keywords: b".toList])
    ∧ (labeledPass ["vendors: a".toList, "keywords: b".toList]).1 ≠ []
    ∧ (labeledPass ["vendors: a".toList, "keywords: b".toList]).2 ≠ []
    ∧ parseVendorsKeywords (prependLines [longComment] "vendors: a\nkeywords: b".toList) =
        .error .scanner := by
  refine ⟨?_, ?_, by decide, by decide, by decide, ?_⟩
  · intro p hp
    rw [List.mem_singleton.1 hp]
    exact longComment_newline_free
  · intro p hp
    rw [List.mem_singleton.1 hp]
    exact hasLabel_longComment
  · rw [prependLines_cons, prependLines_nil]
    exact parse_longComment_first _

/-- C16, amended. For every file content on which the labeled pass yields two
non-empty lists, and every sequence `P` of single lines, each shorter than the
scanner's 65536 bytes, none of which starts after trimming, in any letter
case, with `vendors:` or `keywords:`, parsing `P` followed by the content
returns the same two lists as parsing the content alone. -/
theorem lines_before_label_ignored (P : List Str) (content : Str) (rawLines : List Str)
    (hP : ∀ p ∈ P, ∀ c ∈ p, c ≠ '\n') (hn : ∀ p ∈ P, hasLabel (trimSpace p) = false)
    (hlen : ∀ p ∈ P, byteLen p < maxScanTokenSize)
    (hr : readRawLines content = .ok rawLines)
    (hv : (labeledPass rawLines).1 ≠ []) (hk : (labeledPass rawLines).2 ≠ []) :
    parseVendorsKeywords (prependLines P content) = .ok (labeledPass rawLines)
    ∧ parseVendorsKeywords content = .ok (labeledPass rawLines) :=
  ⟨parse_prependLines P content rawLines hP hn hlen hr hv hk,
    parse_prependLines [] content rawLines (by simp) (by simp) (by simp) hr hv hk⟩

/-- C16, amended, at the lines `Acme, Initech` and `# list` before an
inline-labeled file. -/
theorem lines_before_label_ignored_witness :
    parseVendorsKeywords (prependLines ["Acme, Initech".toList, "# list".toList]
        "vendors: a\nkeywords: b".toList) =
      .ok (labeledPass ["vendors: a".toList, "keywords: b".toList])
    ∧ parseVendorsKeywords "vendors: a\nkeywords: b".toList =
      .ok (labeledPass ["vendors: a".toList, "keywords: b".toList]) :=
  lines_before_label_ignored ["Acme, Initech".toList, "# list".toList]
    "vendors: a\nkeywords: b".toList ["vendors: a".toList, "keywords: b".toList]
    (by decide) (by decide) (by decide) (by decide) (by decide) (by decide)

/-! ## A block of several lines in the unlabeled form -/

/-- C17. In the unlabeled form the lines of a block are joined with line feeds
before splitting: the label-free two-block content `Zoom, Slack` / `Okta, Box`
/ blank / `hacked` parses, and its vendor `Slack\nOkta` contains a line feed;
the block form with the labels `vendors:` and `keywords:` before the same
blocks returns the four vendors as separate entries. -/
theorem multi_line_block_joined :
    (∀ l ∈ rawLinesOf "Zoom, Slack\nOkta, Box\n\nhacked".toList, hasLabel l = false)
    ∧ splitOnBlankBlocks "Zoom, Slack\nOkta, Box\n\nhacked".toList =
        ["Zoom, Slack\nOkta, Box".toList, "hacked".toList]
    ∧ parseVendorsKeywords "Zoom, Slack\nOkta, Box\n\nhacked".toList =
        .ok (["Zoom".toList, "Slack\nOkta".toList, "Box".toList], ["hacked".toList])
    ∧ '\n' ∈ "Slack\nOkta".toList
    ∧ parseVendorsKeywords "vendors:\nZoom, Slack\nOkta, Box\n\nkeywords:\nhacked".toList =
        .ok (["Zoom".toList, "Slack".toList, "Okta".toList, "Box".toList], ["hacked".toList]) := by
  decide

/-! ## The blocks and the raw lines -/

theorem mem_of_mem_trimSpace {l : Str} {c : Char} (h : c ∈ trimSpace l) : c ∈ l := by
  unfold trimSpace at h
  have h1 := (List.rdropWhile_prefix isSpace (l.dropWhile isSpace)).subset h
  exact (List.dropWhile_suffix isSpace).subset h1

theorem join_ne_nil {cur : List Str} (hne : cur ≠ []) (h : ∀ l ∈ cur, l ≠ []) (sep : Str) :
    join cur sep ≠ [] := by
  cases cur with
  | nil => exact absurd rfl hne
  | cons a t =>
    have ha := h a (by simp)
    cases t with
    | nil => rw [join_singleton]; exact ha
    | cons b r =>
      rw [join_cons_cons]
      simp [ha]

theorem flush_inv (st : BlockState) (h1 : ∀ b ∈ st.blocks, b ≠ [])
    (h2 : ∀ l ∈ st.cur, l ≠ [] ∧ ∀ c ∈ l, c ≠ '\n') :
    (∀ b ∈ (if 0 < st.cur.length then st.blocks ++ [join st.cur ['\n']] else st.blocks), b ≠ [])
    ∧ (if 0 < st.cur.length then st.blocks ++ [join st.cur ['\n']] else st.blocks).flatMap linesOf
      = st.blocks.flatMap linesOf ++ st.cur := by
  by_cases hcur : 0 < st.cur.length
  · have hne : st.cur ≠ [] := List.length_pos.1 hcur
    simp only [hcur, if_true]
    constructor
    · intro b hb
      rcases List.mem_append.1 hb with h | h
      · exact h1 b h
      · rw [List.mem_singleton.1 h]
        exact join_ne_nil hne (fun l hl => (h2 l hl).1) _
    · rw [List.flatMap_append]
      simp only [List.flatMap_cons, List.flatMap_nil, List.append_nil]
      rw [linesOf_join hne (fun l hl => (h2 l hl).2)]
  · have hnil : st.cur = [] := by
      cases hc : st.cur with
      | nil => rfl
      | cons a t => rw [hc] at hcur; simp at hcur
    simp only [hcur, if_false]
    exact ⟨h1, by rw [hnil]; simp⟩

theorem foldl_blockStep_inv (ls : List Str) (hls : ∀ l ∈ ls, ∀ c ∈ l, c ≠ '\n')
    (st : BlockState) (h1 : ∀ b ∈ st.blocks, b ≠ [])
    (h2 : ∀ l ∈ st.cur, l ≠ [] ∧ ∀ c ∈ l, c ≠ '\n') :
    (∀ b ∈ (ls.foldl blockStep st).blocks, b ≠ [])
    ∧ (∀ l ∈ (ls.foldl blockStep st).cur, l ≠ [] ∧ ∀ c ∈ l, c ≠ '\n')
    ∧ (ls.foldl blockStep st).blocks.flatMap linesOf ++ (ls.foldl blockStep st).cur =
      st.blocks.flatMap linesOf ++ st.cur ++ (ls.map trimSpace).filter isContentLine := by
  induction ls generalizing st with
  | nil => exact ⟨h1, h2, by simp⟩
  | cons a t ih =>
    have ht : ∀ l ∈ t, ∀ c ∈ l, c ≠ '\n' := fun l hl => hls l (by simp [hl])
    rw [List.foldl_cons]
    by_cases ha : isContentLine (trimSpace a) = true
    · rw [blockStep_content ha]
      have hcl : trimSpace a ≠ [] ∧ ∀ c ∈ trimSpace a, c ≠ '\n' :=
        ⟨((isContentLine_iff _).1 ha).1,
          fun c hc => hls a (by simp) c (mem_of_mem_trimSpace hc)⟩
      obtain ⟨r1, r2, r3⟩ := ih ht ⟨st.blocks, st.cur ++ [trimSpace a]⟩ h1
        (by
          intro l hl
          rcases List.mem_append.1 hl with h | h
          · exact h2 l h
          · rw [List.mem_singleton.1 h]; exact hcl)
      refine ⟨r1, r2, ?_⟩
      rw [r3]
      simp [List.filter_cons, ha]
    · have ha2 : isContentLine (trimSpace a) = false := by simpa using ha
      rw [blockStep_boundary ha2]
      obtain ⟨f1, f2⟩ := flush_inv st h1 h2
      by_cases hcur : 0 < st.cur.length
      · simp only [hcur, if_true] at f1 f2 ⊢
        obtain ⟨r1, r2, r3⟩ := ih ht ⟨st.blocks ++ [join st.cur ['\n']], []⟩ f1 (by simp)
        refine ⟨r1, r2, ?_⟩
        rw [r3]
        simp only [List.append_nil]
        rw [f2]
        simp [List.filter_cons, ha2]
      · simp only [hcur, if_false]
        obtain ⟨r1, r2, r3⟩ := ih ht st h1 h2
        refine ⟨r1, r2, ?_⟩
        rw [r3]
        simp [List.filter_cons, ha2]

theorem blocks_inv (s : Str) :
    (∀ b ∈ splitOnBlankBlocks s, b ≠ [])
    ∧ (splitOnBlankBlocks s).flatMap linesOf = rawLinesOf s := by
  obtain ⟨r1, r2, r3⟩ := foldl_blockStep_inv (linesOf s) (linesOf_newline_free s) ⟨[], []⟩
    (by simp) (by simp)
  obtain ⟨f1, f2⟩ := flush_inv _ r1 r2
  rw [splitOnBlankBlocks_eq]
  refine ⟨f1, ?_⟩
  rw [f2, r3]
  simp [rawLinesOf]

theorem blocks_eq_nil_iff (s : Str) : splitOnBlankBlocks s = [] ↔ rawLinesOf s = [] := by
  obtain ⟨-, h2⟩ := blocks_inv s
  constructor
  · intro h
    rw [← h2, h]
    rfl
  · intro h
    rw [h] at h2
    cases hb : splitOnBlankBlocks s with
    | nil => rfl
    | cons b t =>
      rw [hb, List.flatMap_cons] at h2
      have := List.append_eq_nil.1 h2
      exact absurd this.1 (linesOf_ne_nil b)

/-- C18, as stated, fails in its last part: on a file whose only line is a
comment of 65536 bytes there is no block, and the first pass reports the error
of the scanner, not an empty content. -/
theorem blocks_raw_lines_counterexample :
    splitOnBlankBlocks longComment = []
    ∧ readRawLines longComment = .error .scanner
    ∧ readRawLines longComment ≠ .error .emptyFile := by
  have hlines := linesOf_of_no_newline longComment_newline_free
  have hraw : rawLinesOf longComment = [] := by
    apply rawLinesOf_eq_nil
    intro l hl
    rw [hlines] at hl
    rw [List.mem_singleton.1 hl]
    exact Or.inr longComment_is_comment
  have hread : readRawLines longComment = .error .scanner := by
    rw [readRawLines_eq, hlines]
    have : tooLong longComment = true := by
      simp only [tooLong, decide_eq_true_eq, byteLen_longComment]
      decide
    simp [this]
  refine ⟨(blocks_eq_nil_iff _).2 hraw, hread, ?_⟩
  rw [hread]
  decide

/-- C18, amended. For every text `s`, every block of `splitOnBlankBlocks` is
non-empty, and the blocks split at their line feeds, in block order, are the
lines of `s`, trimmed, without the blank lines and the comments; there is no
block exactly when there is no such line. When every line of `s` is shorter
than the scanner's 65536 bytes, these lines are the raw lines of the first
pass, and there is no block exactly when the first pass reports an empty
content. -/
theorem blocks_are_raw_lines (s : Str) :
    (∀ b ∈ splitOnBlankBlocks s, b ≠ [])
    ∧ (splitOnBlankBlocks s).flatMap linesOf =
        ((linesOf s).map trimSpace).filter
          (fun l => !(decide (l = []) || hasPrefix l ['#']))
    ∧ (splitOnBlankBlocks s = [] ↔ rawLinesOf s = [])
    ∧ ((∀ l ∈ linesOf s, byteLen l < maxScanTokenSize) →
        collectRawLines (scanLines s).1 = (splitOnBlankBlocks s).flatMap linesOf
        ∧ (splitOnBlankBlocks s = [] ↔ readRawLines s = .error .emptyFile)) := by
  obtain ⟨h1, h2⟩ := blocks_inv s
  refine ⟨h1, h2, blocks_eq_nil_iff s, ?_⟩
  intro hlen
  have hlong : (linesOf s).any tooLong = false := by
    rw [List.any_eq_false]
    intro l hl
    simp [tooLong_eq_false (hlen l hl)]
  refine ⟨by rw [scanLines_fst hlong, h2], ?_⟩
  rw [blocks_eq_nil_iff, readRawLines_eq, hlong]
  simp only [Bool.false_eq_true, if_false]
  constructor
  · intro h
    rw [if_pos h]
  · intro h
    by_contra hne
    rw [if_neg hne] at h
    cases h

/-- C18, amended, at a file of two blocks with a comment and a blank line:
its lines are short, so the raw lines of the first pass are the lines of the
blocks. -/
theorem blocks_are_raw_lines_witness :
    (∀ l ∈ linesOf "Zoom\nSlack\n# c\n\nhacked\n".toList, byteLen l < maxScanTokenSize)
    ∧ collectRawLines (scanLines "Zoom\nSlack\n# c\n\nhacked\n".toList).1 =
        (splitOnBlankBlocks "Zoom\nSlack\n# c\n\nhacked\n".toList).flatMap linesOf
    ∧ (splitOnBlankBlocks "Zoom\nSlack\n# c\n\nhacked\n".toList = [] ↔
        readRawLines "Zoom\nSlack\n# c\n\nhacked\n".toList = .error .emptyFile) :=
  ⟨by decide, (blocks_are_raw_lines "Zoom\nSlack\n# c\n\nhacked\n".toList).2.2.2 (by decide)⟩

/-! ## The first two blocks -/

theorem join_linesOf (s : Str) : join (linesOf s) ['\n'] = s :=
  List.intercalate_splitOn s '\n'

theorem linesOf_newline_cons (B : Str) : linesOf ('\n' :: B) = [] :: linesOf B :=
  linesOf_append_newline (A := []) B (by simp)

theorem linesOf_nil : linesOf [] = [[]] := rfl

theorem linesOf_append_newline_any (A B : Str) :
    linesOf (A ++ '\n' :: B) = linesOf A ++ linesOf B := by
  induction A with
  | nil =>
    rw [List.nil_append, linesOf_newline_cons, linesOf_nil]
    rfl
  | cons x t ih =>
    unfold linesOf split at ih ⊢
    by_cases hx : (fun c : Char => c == '\n') x = true
    · rw [List.cons_append, @splitOnP_cons_pos (fun c : Char => c == '\n') x _ hx,
        @splitOnP_cons_pos (fun c : Char => c == '\n') x _ hx, ih]
      rfl
    · have hx2 : (fun c : Char => c == '\n') x = false := by simpa using hx
      obtain ⟨hd, tl, e1, e2⟩ := @splitOnP_cons_neg (fun c : Char => c == '\n') x t hx2
      obtain ⟨hd', tl', e1', e2'⟩ := @splitOnP_cons_neg (fun c : Char => c == '\n') x
        (t ++ '\n' :: B) hx2
      rw [List.cons_append, e2', e2]
      rw [ih, e1] at e1'
      simp only [List.cons_append, List.cons.injEq] at e1'
      rw [← e1'.1, ← e1'.2]
      rfl

theorem byteLen_trimSpace_le (l : Str) : byteLen (trimSpace l) ≤ byteLen l := by
  obtain ⟨t, ht, -⟩ := rdropWhile_decomp (l.dropWhile isSpace)
  have h1 : byteLen l = byteLen (l.takeWhile isSpace) + byteLen (l.dropWhile isSpace) := by
    rw [← byteLen_append, List.takeWhile_append_dropWhile]
  have h2 : byteLen (l.dropWhile isSpace) = byteLen (trimSpace l) + byteLen t := by
    rw [← byteLen_append]
    exact congrArg byteLen ht
  omega

theorem parse_two_good_blocks {b0 b1 : Str}
    (g0 : ∀ l ∈ linesOf b0, trimSpace l = l ∧ isContentLine l = true ∧ hasLabel l = false
      ∧ byteLen l < maxScanTokenSize)
    (g1 : ∀ l ∈ linesOf b1, trimSpace l = l ∧ isContentLine l = true ∧ hasLabel l = false
      ∧ byteLen l < maxScanTokenSize) :
    parseVendorsKeywords (b0 ++ '\n' :: '\n' :: b1) =
      finish (normalizeList (splitCSV b0)) (normalizeList (splitCSV b1)) := by
  have hlines : linesOf (b0 ++ '\n' :: '\n' :: b1) = linesOf b0 ++ [] :: linesOf b1 := by
    rw [linesOf_append_newline_any, linesOf_newline_cons]
  have hc0 : ∀ l ∈ linesOf b0, isContentLine (trimSpace l) = true := by
    intro l hl; rw [(g0 l hl).1]; exact (g0 l hl).2.1
  have hc1 : ∀ l ∈ linesOf b1, isContentLine (trimSpace l) = true := by
    intro l hl; rw [(g1 l hl).1]; exact (g1 l hl).2.1
  have hmap0 : (linesOf b0).map trimSpace = linesOf b0 := by
    conv_rhs => rw [← List.map_id (linesOf b0)]
    exact List.map_congr_left (fun l hl => (g0 l hl).1)
  have hmap1 : (linesOf b1).map trimSpace = linesOf b1 := by
    conv_rhs => rw [← List.map_id (linesOf b1)]
    exact List.map_congr_left (fun l hl => (g1 l hl).1)
  have hraw : rawLinesOf (b0 ++ '\n' :: '\n' :: b1) = linesOf b0 ++ linesOf b1 := by
    unfold rawLinesOf
    rw [hlines, List.map_append, List.map_cons, List.filter_append, List.filter_cons,
      isContentLine_blank, hmap0, hmap1]
    simp only [Bool.false_eq_true, if_false]
    rw [List.filter_eq_self.2 (fun l hl => (g0 l hl).2.1),
      List.filter_eq_self.2 (fun l hl => (g1 l hl).2.1)]
  have hlen0 : 0 < (linesOf b0).length := List.length_pos.2 (linesOf_ne_nil b0)
  have hlen1 : 0 < (linesOf b1).length := List.length_pos.2 (linesOf_ne_nil b1)
  have hblocks : splitOnBlankBlocks (b0 ++ '\n' :: '\n' :: b1) = b0 :: b1 :: [] := by
    rw [splitOnBlankBlocks_eq, hlines, List.foldl_append, List.foldl_cons,
      foldl_blockStep_content hc0, hmap0, blockStep_boundary isContentLine_blank]
    simp only [List.nil_append, hlen0, if_true]
    rw [foldl_blockStep_content hc1, hmap1]
    simp only [List.nil_append, hlen1, if_true, join_linesOf]
    rfl
  have hlong : (linesOf (b0 ++ '\n' :: '\n' :: b1)).any tooLong = false := by
    rw [hlines, List.any_eq_false]
    intro l hl
    rcases List.mem_append.1 hl with h | h
    · simp [tooLong_eq_false (g0 l h).2.2.2]
    · rcases List.mem_cons.1 h with h | h
      · rw [h]; simp [tooLong_nil]
      · simp [tooLong_eq_false (g1 l h).2.2.2]
  apply parse_of_no_label hlong _ _ hblocks
  · rw [hraw]
    intro h0
    exact linesOf_ne_nil b0 (List.append_eq_nil.1 h0).1
  · intro l hl
    rw [hraw] at hl
    rcases List.mem_append.1 hl with h | h
    · exact (g0 l h).2.2.1
    · exact (g1 l h).2.2.1

theorem good_block_of_mem {content b : Str}
    (hno : ∀ l ∈ linesOf content, hasLabel (trimSpace l) = false)
    (hlen : ∀ l ∈ linesOf content, byteLen l < maxScanTokenSize)
    (hb : b ∈ splitOnBlankBlocks content) :
    ∀ l ∈ linesOf b, trimSpace l = l ∧ isContentLine l = true ∧ hasLabel l = false
      ∧ byteLen l < maxScanTokenSize := by
  intro l hl
  have hmem : l ∈ rawLinesOf content := by
    rw [← (blocks_inv content).2]
    exact List.mem_flatMap.2 ⟨b, hb, hl⟩
  unfold rawLinesOf at hmem
  obtain ⟨h1, h2⟩ := List.mem_filter.1 hmem
  obtain ⟨l0, hl0, rfl⟩ := List.mem_map.1 h1
  refine ⟨trimSpace_idem l0, h2, hno l0 hl0, ?_⟩
  have := byteLen_trimSpace_le l0
  have := hlen l0 hl0
  omega

/-- C19, as stated, fails in its first part: this label-free file has one
content line, one block, and a comment of 65536 bytes; the parser fails with
the error of the scanner, not with the error that vendors and keywords could
not be located. -/
theorem first_two_blocks_counterexample :
    (∀ l ∈ linesOf ("x".toList ++ '\n' :: longComment), hasLabel (trimSpace l) = false)
    ∧ rawLinesOf ("x".toList ++ '\n' :: longComment) = ["x".toList]
    ∧ splitOnBlankBlocks ("x".toList ++ '\n' :: longComment) = ["x".toList]
    ∧ parseVendorsKeywords ("x".toList ++ '\n' :: longComment) = .error .scanner
    ∧ parseVendorsKeywords ("x".toList ++ '\n' :: longComment) ≠ .error .notLocated := by
  have hlines : linesOf ("x".toList ++ '\n' :: longComment) = ["x".toList, longComment] := by
    rw [linesOf_append_newline _ (by decide), linesOf_of_no_newline longComment_newline_free]
  have hx : isContentLine (trimSpace "x".toList) = true := by decide
  have hcm : isContentLine (trimSpace longComment) = false :=
    isContentLine_comment longComment_is_comment
  have hparse : parseVendorsKeywords ("x".toList ++ '\n' :: longComment) = .error .scanner := by
    apply parse_long_line
    refine ⟨longComment, by rw [hlines]; simp, ?_⟩
    rw [byteLen_longComment]
    decide
  refine ⟨?_, ?_, ?_, hparse, by rw [hparse]; decide⟩
  · intro l hl
    rw [hlines] at hl
    simp only [List.mem_cons, List.mem_singleton, List.not_mem_nil, or_false] at hl
    rcases hl with rfl | rfl
    · decide
    · exact hasLabel_longComment
  · unfold rawLinesOf
    rw [hlines]
    simp only [List.map_cons, List.map_nil, List.filter_cons, List.filter_nil, hx, hcm,
      if_true, Bool.false_eq_true, if_false]
    rfl
  · rw [splitOnBlankBlocks_eq, hlines, List.foldl_cons, List.foldl_cons, List.foldl_nil,
      blockStep_boundary hcm, blockStep_content hx]
    rfl

/-- C19, amended. For every file content with no line that starts after
trimming, in any letter case, with `vendors:` or `keywords:`, and whose lines
are all shorter than the scanner's 65536 bytes: with fewer than two blocks and
at least one content line the parser fails with the error that vendors and
keywords could not be located; with two or more blocks the result is the
result for the content made of the first two blocks only, a function of these
two blocks, whatever blocks follow. -/
theorem fallback_first_two_blocks (content : Str)
    (hno : ∀ l ∈ linesOf content, hasLabel (trimSpace l) = false)
    (hlen : ∀ l ∈ linesOf content, byteLen l < maxScanTokenSize) :
    ((splitOnBlankBlocks content).length < 2 → rawLinesOf content ≠ [] →
      parseVendorsKeywords content = .error .notLocated)
    ∧ (∀ b0 b1 rest, splitOnBlankBlocks content = b0 :: b1 :: rest →
      parseVendorsKeywords content = parseVendorsKeywords (b0 ++ '\n' :: '\n' :: b1)
      ∧ parseVendorsKeywords content =
        finish (normalizeList (splitCSV b0)) (normalizeList (splitCSV b1))) := by
  have hlong : (linesOf content).any tooLong = false := by
    rw [List.any_eq_false]
    intro l hl
    simp [tooLong_eq_false (hlen l hl)]
  have hnolabel : ∀ l ∈ rawLinesOf content, hasLabel l = false := by
    intro l hl
    unfold rawLinesOf at hl
    obtain ⟨l0, hl0, rfl⟩ := List.mem_map.1 (List.mem_filter.1 hl).1
    exact hno l0 hl0
  constructor
  · intro hfew hraw
    rw [parse_of_few_blocks hlong hraw hfew, labeledPass_no_label hnolabel]
    exact finish_of_nil_left _
  · intro b0 b1 rest hblocks
    have hraw : rawLinesOf content ≠ [] := by
      intro h0
      rw [(blocks_eq_nil_iff content).2 h0] at hblocks
      cases hblocks
    have e := parse_of_no_label hlong hraw hnolabel hblocks
    refine ⟨?_, e⟩
    rw [e, parse_two_good_blocks
      (good_block_of_mem hno hlen (by rw [hblocks]; simp))
      (good_block_of_mem hno hlen (by rw [hblocks]; simp))]

/-- C19, amended, at a label-free file of three blocks. -/
theorem fallback_first_two_blocks_witness :
    ((splitOnBlankBlocks "Zoom, Slack\n\nhacked\n\nmore".toList).length < 2 →
      rawLinesOf "Zoom, Slack\n\nhacked\n\nmore".toList ≠ [] →
      parseVendorsKeywords "Zoom, Slack\n\nhacked\n\nmore".toList = .error .notLocated)
    ∧ (∀ b0 b1 rest, splitOnBlankBlocks "Zoom, Slack\n\nhacked\n\nmore".toList =
        b0 :: b1 :: rest →
      parseVendorsKeywords "Zoom, Slack\n\nhacked\n\nmore".toList =
        parseVendorsKeywords (b0 ++ '\n' :: '\n' :: b1)
      ∧ parseVendorsKeywords "Zoom, Slack\n\nhacked\n\nmore".toList =
        finish (normalizeList (splitCSV b0)) (normalizeList (splitCSV b1))) :=
  fallback_first_two_blocks "Zoom, Slack\n\nhacked\n\nmore".toList (by decide) (by decide)

end QueryGen
